import Mathlib

/-!
Verification development for the `pstr` crate: a string interning pool
(`src/pool.rs`), an atomically reference counted cell (`src/prc.rs`) and a
mutable-on-write interning string (`src/mow_str.rs`, `src/istr.rs`).

The code is embedded shallowly.  The sequential model threads an explicit
pool state through every operation; `Arc` handles are modelled as a pointer
identity (a natural number chosen by the allocator) together with the
pointee string, and strong counts are kept per pool entry.  A separate
interleaving model covers the concurrent claims.
-/

set_option autoImplicit false
set_option linter.unnecessarySeqFocus false

namespace PStr

/-- Model of an `Intern<str>` handle (`src/pool.rs`): the `Arc` pointer
identity together with the string it points to. -/
structure IStrRep where
  ptr : Nat
  data : String
deriving DecidableEq, Repr

/-- Pointer-identity equality of `Intern` handles: `impl PartialEq for
Intern` compares `Arc::as_ptr` of the two handles. -/
def internEq (a b : IStrRep) : Bool :=
  a.ptr == b.ptr

/-- One entry of the string pool: the canonical cell's pointer identity,
its content, and the `Arc` strong count (the pool's own reference
included). -/
structure PoolEntry where
  ptr : Nat
  data : String
  strong : Nat
deriving DecidableEq, Repr

/-- Sequential model of `Pool<str>` (`src/pool.rs`): the list of published
entries plus a fresh-pointer counter standing for the allocator. -/
structure PoolSt where
  entries : List PoolEntry
  next : Nat
deriving DecidableEq, Repr

/-- Increment the strong count of the cell with pointer `i`: an `Arc`
clone, as performed by `v.key().clone()` on a pool lookup hit. -/
def bumpStrong (p : PoolSt) (i : Nat) : PoolSt :=
  ⟨p.entries.map (fun e => if e.ptr == i then ⟨e.ptr, e.data, e.strong + 1⟩ else e), p.next⟩

/-- Decrement the strong count of the cell with pointer `i`: an `Arc` drop
of one external handle (the pool keeps its own reference, so the count
stays positive and the cell stays allocated). -/
def dropHandle (p : PoolSt) (i : Nat) : PoolSt :=
  ⟨p.entries.map (fun e => if e.ptr == i then ⟨e.ptr, e.data, e.strong - 1⟩ else e), p.next⟩

/-- `Pool::intern` (`src/pool.rs` lines 41-49), sequential model: look the
content up; on a hit return a clone of the canonical cell, on a miss
allocate a fresh cell and publish it with strong count 2 (the pool's
reference plus the handle returned to the caller). -/
def poolIntern (p : PoolSt) (s : String) : IStrRep × PoolSt :=
  match p.entries.find? (fun e => e.data == s) with
  | some e => (⟨e.ptr, e.data⟩, bumpStrong p e.ptr)
  | none => (⟨p.next, s⟩, ⟨p.entries ++ [⟨p.next, s, 2⟩], p.next + 1⟩)

/-- `Pool::collect_garbage` (`src/pool.rs` lines 78-83): retain exactly the
entries whose strong count exceeds 1. -/
def collectGarbage (p : PoolSt) : PoolSt :=
  ⟨p.entries.filter (fun e => 1 < e.strong), p.next⟩

/-- On a lookup hit, `poolIntern` returns a clone of the found entry and
bumps its strong count. -/
theorem poolIntern_hit (p : PoolSt) (s : String) (e : PoolEntry)
    (h : p.entries.find? (fun e => e.data == s) = some e) :
    poolIntern p s = (⟨e.ptr, e.data⟩, bumpStrong p e.ptr) := by
  simp [poolIntern, h]

/-- On a lookup miss, `poolIntern` publishes a fresh cell with strong
count 2 and returns a handle to it. -/
theorem poolIntern_miss (p : PoolSt) (s : String)
    (h : p.entries.find? (fun e => e.data == s) = none) :
    poolIntern p s = (⟨p.next, s⟩, ⟨p.entries ++ [⟨p.next, s, 2⟩], p.next + 1⟩) := by
  simp [poolIntern, h]

/-- Finding an entry in a bumped pool finds the bumped image of the entry
found in the original pool: the bump rewrites `ptr` and `data` of no
entry. -/
theorem find?_bumpStrong (p : PoolSt) (i : Nat) (s : String) :
    (bumpStrong p i).entries.find? (fun e => e.data == s)
      = (p.entries.find? (fun e => e.data == s)).map
          (fun e => if e.ptr == i then ⟨e.ptr, e.data, e.strong + 1⟩ else e) := by
  show (p.entries.map _).find? _ = _
  rw [List.find?_map]
  have hfun : ((fun e : PoolEntry => e.data == s) ∘
      (fun e : PoolEntry => if e.ptr == i then ⟨e.ptr, e.data, e.strong + 1⟩ else e))
      = (fun e : PoolEntry => e.data == s) := by
    funext e
    by_cases hp : (e.ptr == i) = true <;> simp [Function.comp, hp]
  rw [hfun]

/-- Interning the same content twice in a row returns pointer-identical
handles. -/
theorem intern_twice_ptr_eq (p : PoolSt) (s : String) :
    ((poolIntern (poolIntern p s).2 s).1).ptr = ((poolIntern p s).1).ptr := by
  cases hfind : p.entries.find? (fun e => e.data == s) with
  | some e =>
    rw [poolIntern_hit p s e hfind]
    have h2 : (bumpStrong p e.ptr).entries.find? (fun e => e.data == s)
        = some (if e.ptr == e.ptr then ⟨e.ptr, e.data, e.strong + 1⟩ else e) := by
      rw [find?_bumpStrong, hfind, Option.map_some']
    rw [poolIntern_hit _ s _ h2]
    simp
  | none =>
    rw [poolIntern_miss p s hfind]
    have h2 : ((p.entries ++ [(⟨p.next, s, 2⟩ : PoolEntry)]).find? (fun e => e.data == s))
        = some (⟨p.next, s, 2⟩ : PoolEntry) := by
      rw [List.find?_append, hfind]
      simp [List.find?]
    rw [poolIntern_hit _ s _ h2]

/-- Model of `MowStrInner` (`src/mow_str.rs` lines 23-27): either an
interned handle (`I(IStr)`) or a private mutable buffer
(`M(Option<String>)`). -/
inductive MowInner where
  | I : IStrRep → MowInner
  | M : Option String → MowInner
deriving DecidableEq, Repr

/-- `MowStr::is_interned`. -/
def mowIsInterned : MowInner → Bool
  | .I _ => true
  | .M _ => false

/-- `MowStr::is_mutable`. -/
def mowIsMutable : MowInner → Bool
  | .I _ => false
  | .M _ => true

/-- The manual `impl PartialEq for MowStrInner` (`src/mow_str.rs` lines
31-45).  `I`/`I` compares through the derived `IStr` equality, which is
`Intern`'s pointer identity; the mixed arms unwrap the `Option` (modelled
as `none` = panic) and compare content; `M`/`M` compares the two
`Option<String>` values. -/
def mowBEq : MowInner → MowInner → Option Bool
  | .I a, .I b => some (a.ptr == b.ptr)
  | .I a, .M o =>
    match o with
    | some o' => some (o' == a.data)
    | none => none
  | .M o, .I b =>
    match o with
    | some o' => some (o' == b.data)
    | none => none
  | .M a, .M b => some (a == b)

/-- Comparison of two `Option<String>` values as Rust's derived
`Ord for Option<String>`: `None` sorts before `Some`, two `Some`s compare
their contents. -/
def optStrCmp : Option String → Option String → Ordering
  | none, none => .eq
  | none, some _ => .lt
  | some _, none => .gt
  | some a, some b => compare a b

/-- The derived `Ord`/`PartialOrd` on `MowStrInner`
(`#[derive(..., Ord, PartialOrd)]`, `src/mow_str.rs` line 23): variants
compare by declaration order first (`I` before `M`), and only within one
variant by the field.  `I`/`I` goes through the derived `Ord` of `IStr`,
`Intern` and `Arc<str>`, which is content comparison. -/
def mowCmp : MowInner → MowInner → Ordering
  | .I a, .I b => compare a.data b.data
  | .I _, .M _ => .lt
  | .M _, .I _ => .gt
  | .M a, .M b => optStrCmp a b

/-- `impl AsRef<str> for MowStr` (`src/mow_str.rs` lines 539-547): the
logical content, unwrapping the buffer in the `M` state (`none` models the
unwrap panic). -/
def mowAsRef : MowInner → Option String
  | .I a => some a.data
  | .M (some b) => some b
  | .M none => none

/-- The string fed to the hasher by `impl Hash for MowStr` (`src/mow_str.rs`
lines 609-614): `self.deref()`, i.e. the content returned by `as_ref`.
Two values hash identically exactly when this key is identical. -/
def mowHashKey (m : MowInner) : Option String :=
  mowAsRef m

/-- `MowStr::new`: intern the content and wrap the returned handle. -/
def mowNew (s : String) (p : PoolSt) : MowInner × PoolSt :=
  let r := poolIntern p s
  (.I r.1, r.2)

/-- `MowStr::from_string` (`src/mow_str.rs` lines 117-120): goes through
`IStr::from_string`, which interns the string. -/
def mowFromString (s : String) (p : PoolSt) : MowInner × PoolSt :=
  mowNew s p

/-- `MowStr::new_mut` / `MowStr::from_string_mut`: a private buffer,
bypassing the pool. -/
def mowNewMut (s : String) : MowInner :=
  .M (some s)

/-- `MowStr::to_mut` (`src/mow_str.rs` lines 174-180): no-op when already
mutable; otherwise copy the cell's content into a private buffer and drop
the old handle (the old `self` is overwritten, releasing one strong
reference). -/
def mowToMut : MowInner → PoolSt → MowInner × PoolSt
  | .I a, p => (.M (some a.data), dropHandle p a.ptr)
  | .M o, p => (.M o, p)

/-- `MowStr::intern` (`src/mow_str.rs` lines 163-169): no-op when already
interned; otherwise take the buffer (unwrap: `none` models the panic) and
reintern it through `from_string`. -/
def mowIntern : MowInner → PoolSt → Option (MowInner × PoolSt)
  | .I a, p => some (.I a, p)
  | .M (some b), p => some (mowFromString b p)
  | .M none, _ => none

/-- `MowStr::push_str` (`src/mow_str.rs` lines 321-325): `mutdown` (which
is `to_mut` followed by unwrapping the mutable buffer) then an in-place
append.  The `I` fallthrough after `to_mut` is the `panic!("never")` arm of
`mutdown`. -/
def mowPushStr (m : MowInner) (s : String) (p : PoolSt) : Option (MowInner × PoolSt) :=
  match mowToMut m p with
  | (.M (some b), p') => some (.M (some (b ++ s)), p')
  | (.M none, _) => none
  | (.I _, _) => none

/-- `MowStr::swap_mut` (`src/mow_str.rs` lines 204-211): take the old
buffer when mutable (`None` result when interned, dropping the old
handle), then unconditionally replace `self` with a fresh mutable buffer
holding the new string. -/
def mowSwapMut (m : MowInner) (s : String) (p : PoolSt) :
    Option (Option String × MowInner × PoolSt) :=
  match m with
  | .I a => some (none, .M (some s), dropHandle p a.ptr)
  | .M (some b) => some (some b, .M (some s), p)
  | .M none => none

/-- `MowStr::try_swap_mut` (`src/mow_str.rs` lines 216-225): like
`swap_mut` but `self` is replaced only when the old buffer was taken, so an
interned value is left untouched. -/
def mowTrySwapMut (m : MowInner) (s : String) (p : PoolSt) :
    Option (Option String × MowInner × PoolSt) :=
  match m with
  | .I a => some (none, .I a, p)
  | .M (some b) => some (some b, .M (some s), p)
  | .M none => none

/-- `MowStr::try_string` (`src/mow_str.rs` lines 249-255): `None` when
interned, otherwise the unwrapped buffer (outer `none` models the unwrap
panic). -/
def mowTryString : MowInner → Option (Option String)
  | .I _ => some none
  | .M (some b) => some (some b)
  | .M none => none

/-- `MowStr::into_string` (`src/mow_str.rs` lines 301-308). -/
def mowIntoString : MowInner → Option String
  | .I a => some a.data
  | .M (some b) => some b
  | .M none => none

/-- `impl ToString for MowStr` (`src/mow_str.rs` lines 785-793). -/
def mowToStr : MowInner → Option String
  | .I a => some a.data
  | .M (some b) => some b
  | .M none => none

/-- `impl Clone for MowStr` (`src/mow_str.rs` lines 505-512): an interned
value clones its handle (an `Arc` clone, bumping the strong count); a
mutable value clones its buffer and interns the clone through
`from_string`. -/
def mowClone (m : MowInner) (p : PoolSt) : Option (MowInner × PoolSt) :=
  match m with
  | .I a => some (.I a, bumpStrong p a.ptr)
  | .M (some b) => some (mowFromString b p)
  | .M none => none

/-- The handle returned by `poolIntern` carries exactly the requested
content. -/
theorem poolIntern_data (p : PoolSt) (s : String) :
    ((poolIntern p s).1).data = s := by
  cases hfind : p.entries.find? (fun e => e.data == s) with
  | some e =>
    rw [poolIntern_hit p s e hfind]
    have := List.find?_some hfind
    simpa using this
  | none =>
    rw [poolIntern_miss p s hfind]

/-- After `poolIntern`, the pool contains an entry for the requested
content whose cell is the returned handle. -/
theorem poolIntern_mem (p : PoolSt) (s : String) :
    ∃ e ∈ ((poolIntern p s).2).entries,
      e.data = s ∧ e.ptr = ((poolIntern p s).1).ptr := by
  cases hfind : p.entries.find? (fun e => e.data == s) with
  | some e =>
    rw [poolIntern_hit p s e hfind]
    have hdata : e.data = s := by simpa using List.find?_some hfind
    have hmem : e ∈ p.entries := List.mem_of_find?_eq_some hfind
    refine ⟨⟨e.ptr, e.data, e.strong + 1⟩, ?_, hdata, rfl⟩
    show _ ∈ p.entries.map _
    have : (⟨e.ptr, e.data, e.strong + 1⟩ : PoolEntry)
        = (fun x : PoolEntry => if x.ptr == e.ptr then ⟨x.ptr, x.data, x.strong + 1⟩ else x) e := by
      simp
    rw [this]
    exact List.mem_map_of_mem _ hmem
  | none =>
    rw [poolIntern_miss p s hfind]
    exact ⟨⟨p.next, s, 2⟩, by simp, rfl, rfl⟩

/-- C1: for a fixed pool, interning bit-identical content twice returns
handles to the same allocation: the two `Intern` values returned by
`intern(s)` on the same pool compare equal under `Intern`'s
pointer-identity equality. -/
theorem c1_intern_identity (p : PoolSt) (s : String) :
    internEq (poolIntern p s).1 (poolIntern (poolIntern p s).2 s).1 = true := by
  simp [internEq, intern_twice_ptr_eq]

/-- C2, evaluation at the failing input `MowStr::new("ab")` versus
`MowStr::new_mut("ab")`: equality and the hash key are computed over
content as the claim states, but the derived ordering compares the
`Shared`/`Exclusive` tag first and returns `Less` where the claim (and the
consistency contract of `PartialOrd` with the content-based `PartialEq`)
requires `Equal`. -/
theorem c2_ordering_not_content_based :
    mowBEq (.I ⟨0, "ab"⟩) (.M (some "ab")) = some true ∧
    mowHashKey (.I ⟨0, "ab"⟩) = mowHashKey (.M (some "ab")) ∧
    mowCmp (.I ⟨0, "ab"⟩) (.M (some "ab")) = .lt ∧
    Ordering.lt ≠ Ordering.eq := by
  refine ⟨by decide, by decide, rfl, by decide⟩

/-- C3: `collect_garbage` removes every entry whose strong count is
exactly 1 and keeps every entry whose strong count exceeds 1 unchanged
(same cell, same content, same count). -/
theorem c3_collect_exact (p : PoolSt) (e : PoolEntry)
    (hnd : (p.entries.map (fun e => e.ptr)).Nodup) (he : e ∈ p.entries) :
    (e.strong = 1 → ∀ e' ∈ (collectGarbage p).entries, e'.ptr ≠ e.ptr) ∧
    (1 < e.strong → e ∈ (collectGarbage p).entries) := by
  constructor
  · intro h1 e' he' hptr
    have hmem := List.mem_filter.mp he'
    have heq : e' = e := by
      have hinj := List.inj_on_of_nodup_map hnd
      exact hinj hmem.1 he hptr
    rw [heq] at hmem
    have : 1 < e.strong := by simpa using hmem.2
    omega
  · intro h2
    exact List.mem_filter.mpr ⟨he, by simpa using h2⟩

/-- C3 witness: a concrete pool with one dead entry (strong count 1) and
one live entry (strong count 2); the dead one is swept, the live one is
retained. -/
theorem c3_collect_exact_witness :
    (((⟨0, "a", 1⟩ : PoolEntry).strong = 1 →
       ∀ e' ∈ (collectGarbage ⟨[⟨0, "a", 1⟩, ⟨1, "b", 2⟩], 2⟩).entries,
         e'.ptr ≠ (⟨0, "a", 1⟩ : PoolEntry).ptr) ∧
     (1 < (⟨0, "a", 1⟩ : PoolEntry).strong →
       (⟨0, "a", 1⟩ : PoolEntry) ∈ (collectGarbage ⟨[⟨0, "a", 1⟩, ⟨1, "b", 2⟩], 2⟩).entries)) ∧
    ((⟨1, "b", 2⟩ : PoolEntry) ∈ (collectGarbage ⟨[⟨0, "a", 1⟩, ⟨1, "b", 2⟩], 2⟩).entries) :=
  ⟨c3_collect_exact ⟨[⟨0, "a", 1⟩, ⟨1, "b", 2⟩], 2⟩ ⟨0, "a", 1⟩ (by decide) (by decide),
   (c3_collect_exact ⟨[⟨0, "a", 1⟩, ⟨1, "b", 2⟩], 2⟩ ⟨1, "b", 2⟩ (by decide) (by decide)).2
     (by decide)⟩

/-- C5: the swap operations mutate only in the `Exclusive` state.  On an
interned value `swap_mut` returns `None` (installing the new buffer), and
the strict `try_swap_mut` returns `None` leaving the value untouched; on a
mutable value both return the old buffer and install the new one. -/
theorem c5_swap_only_when_mutable :
    (∀ (a : IStrRep) (s : String) (p : PoolSt),
      mowSwapMut (.I a) s p = some (none, .M (some s), dropHandle p a.ptr)) ∧
    (∀ (a : IStrRep) (s : String) (p : PoolSt),
      mowTrySwapMut (.I a) s p = some (none, .I a, p)) ∧
    (∀ (b s : String) (p : PoolSt),
      mowSwapMut (.M (some b)) s p = some (some b, .M (some s), p)) ∧
    (∀ (b s : String) (p : PoolSt),
      mowTrySwapMut (.M (some b)) s p = some (some b, .M (some s), p)) :=
  ⟨fun _ _ _ => rfl, fun _ _ _ => rfl, fun _ _ _ => rfl, fun _ _ _ => rfl⟩

/-- C9: cloning a mutable value returns an interned value with the same
content and registers that content in the pool; cloning an interned value
returns the same handle (bumping its strong count). -/
theorem c9_clone_interns :
    (∀ (s : String) (p : PoolSt), ∃ (h : IStrRep) (p' : PoolSt),
        mowClone (.M (some s)) p = some (.I h, p') ∧ h.data = s ∧
        ∃ e ∈ p'.entries, e.data = s ∧ e.ptr = h.ptr) ∧
    (∀ (a : IStrRep) (p : PoolSt),
        mowClone (.I a) p = some (.I a, bumpStrong p a.ptr)) := by
  constructor
  · intro s p
    refine ⟨(poolIntern p s).1, (poolIntern p s).2, rfl, poolIntern_data p s, ?_⟩
    exact poolIntern_mem p s
  · intro a p
    rfl

/-- C4: starting from a `Shared` value holding `"hello"`, `push_str(" world")`
leaves a mutable value with content `"hello world"`; a subsequent `intern()`
returns to the `Shared` state with the same content, and the resulting
handle is pointer-identical to the handle produced by directly interning
`"hello world"` in the same pool. -/
theorem c4_mutate_then_intern (a : IStrRep) (p : PoolSt) (hdata : a.data = "hello") :
    ∃ (m1 : MowInner) (p1 : PoolSt) (h2 : IStrRep) (p2 : PoolSt),
      mowPushStr (.I a) " world" p = some (m1, p1) ∧
      mowIsMutable m1 = true ∧
      mowAsRef m1 = some "hello world" ∧
      mowIntern m1 p1 = some (.I h2, p2) ∧
      h2.data = "hello world" ∧
      internEq h2 (poolIntern p2 "hello world").1 = true := by
  have happ : a.data ++ " world" = "hello world" := by rw [hdata]; rfl
  refine ⟨.M (some (a.data ++ " world")), dropHandle p a.ptr,
    (poolIntern (dropHandle p a.ptr) "hello world").1,
    (poolIntern (dropHandle p a.ptr) "hello world").2, rfl, rfl, by rw [happ]; rfl, ?_, ?_, ?_⟩
  · show mowIntern (.M (some (a.data ++ " world"))) (dropHandle p a.ptr) = _
    rw [happ]
    rfl
  · exact poolIntern_data _ _
  · simp [internEq, intern_twice_ptr_eq]

/-- C4 witness: the concrete run on the empty pool starting from the
handle `⟨0, "hello"⟩`. -/
theorem c4_mutate_then_intern_witness :
    ∃ (m1 : MowInner) (p1 : PoolSt) (h2 : IStrRep) (p2 : PoolSt),
      mowPushStr (.I ⟨0, "hello"⟩) " world" ⟨[⟨0, "hello", 2⟩], 1⟩ = some (m1, p1) ∧
      mowIsMutable m1 = true ∧
      mowAsRef m1 = some "hello world" ∧
      mowIntern m1 p1 = some (.I h2, p2) ∧
      h2.data = "hello world" ∧
      internEq h2 (poolIntern p2 "hello world").1 = true :=
  c4_mutate_then_intern ⟨0, "hello"⟩ ⟨[⟨0, "hello", 2⟩], 1⟩ rfl

/-- The `MowStr` representation invariant of C10: in the mutable variant
the inner `Option<String>` is `Some`. -/
def mowOk : MowInner → Bool
  | .I _ => true
  | .M o => o.isSome

/-- An operation result neither panicked nor left an emptied buffer
behind. -/
def okAfter : Option (MowInner × PoolSt) → Bool
  | none => false
  | some (m, _) => mowOk m

/-- Like `okAfter` for the swap operations, which also return the old
buffer. -/
def okAfterSwap : Option (Option String × MowInner × PoolSt) → Bool
  | none => false
  | some (_, m, _) => mowOk m

/-- C10: every constructor establishes the `Some` invariant, every
operation preserves it, and under it no internal `unwrap` panics: the
state-changing operations return a result (never the `none` that models a
panic) and the accessors are all defined. -/
theorem c10_option_invariant (m : MowInner) (s : String) (p : PoolSt)
    (h : mowOk m = true) :
    okAfter (mowIntern m p) = true ∧
    mowOk (mowToMut m p).1 = true ∧
    okAfter (mowPushStr m s p) = true ∧
    okAfterSwap (mowSwapMut m s p) = true ∧
    okAfterSwap (mowTrySwapMut m s p) = true ∧
    okAfter (mowClone m p) = true ∧
    (mowAsRef m).isSome = true ∧
    (mowTryString m).isSome = true ∧
    (mowIntoString m).isSome = true ∧
    (mowToStr m).isSome = true ∧
    mowOk (mowNew s p).1 = true ∧
    mowOk (mowNewMut s) = true ∧
    mowOk (mowFromString s p).1 = true := by
  cases m with
  | I a =>
    refine ⟨rfl, rfl, rfl, rfl, rfl, rfl, rfl, rfl, rfl, rfl, rfl, rfl, rfl⟩
  | M o =>
    cases o with
    | none => simp [mowOk] at h
    | some b =>
      refine ⟨rfl, rfl, rfl, rfl, rfl, rfl, rfl, rfl, rfl, rfl, rfl, rfl, rfl⟩

/-- C10 witness: the invariant run on a concrete mutable value. -/
theorem c10_option_invariant_witness :
    okAfter (mowIntern (.M (some "a")) ⟨[], 0⟩) = true ∧
    mowOk (mowToMut (.M (some "a")) ⟨[], 0⟩).1 = true ∧
    okAfter (mowPushStr (.M (some "a")) "b" ⟨[], 0⟩) = true ∧
    okAfterSwap (mowSwapMut (.M (some "a")) "b" ⟨[], 0⟩) = true ∧
    okAfterSwap (mowTrySwapMut (.M (some "a")) "b" ⟨[], 0⟩) = true ∧
    okAfter (mowClone (.M (some "a")) ⟨[], 0⟩) = true ∧
    (mowAsRef (.M (some "a"))).isSome = true ∧
    (mowTryString (.M (some "a"))).isSome = true ∧
    (mowIntoString (.M (some "a"))).isSome = true ∧
    (mowToStr (.M (some "a"))).isSome = true ∧
    mowOk (mowNew "b" ⟨[], 0⟩).1 = true ∧
    mowOk (mowNewMut "b") = true ∧
    mowOk (mowFromString "b" ⟨[], 0⟩).1 = true :=
  c10_option_invariant (.M (some "a")) "b" ⟨[], 0⟩ rfl

/-- `MAX_REFCOUNT` (`src/prc.rs` line 79): `isize::MAX as usize` on a
64-bit target. -/
def MAX_REFCOUNT : Nat := 2 ^ 63 - 1

/-- A `Prc` handle: the control-block pointer and the data pointer
(`src/prc.rs` lines 20-25).  The strong count lives behind `inner` and is
threaded separately. -/
structure PrcH where
  inner : Nat
  data : Nat
deriving DecidableEq, Repr

/-- `impl Clone for Prc` (`src/prc.rs` lines 81-89): `fetch_add(1, Relaxed)`
(wrapping on `u64`), then abort — modelled as `none` — when the old count
exceeded `MAX_REFCOUNT`; otherwise a handle to the same allocation is
returned together with the new strong count. -/
def prcClone (h : PrcH) (strong : Nat) : Option (PrcH × Nat) :=
  let old := strong
  let stored := (strong + 1) % 2 ^ 64
  if MAX_REFCOUNT < old then none else some (⟨h.inner, h.data⟩, stored)

/-- `impl Drop for Prc` (`src/prc.rs` lines 107-117): `fetch_sub(1, Release)`
(wrapping on `u64`); when the old count was not 1 the drop returns at once,
otherwise `drop_slow` deallocates the control block and the buffer.  The
result is the new strong count paired with whether deallocation ran. -/
def prcDrop (strong : Nat) : Nat × Bool :=
  let old := strong
  let stored := (strong + (2 ^ 64 - 1)) % 2 ^ 64
  if old ≠ 1 then (stored, false) else (stored, true)

/-- C7: under the precondition that the strong count is within the
representable range, cloning a `Prc` never aborts, returns a handle to the
same allocation, and leaves the count at exactly one more than before;
past the range the process aborts. -/
theorem c7_clone_increments (h : PrcH) (n : Nat) :
    (n ≤ MAX_REFCOUNT → prcClone h n = some (h, n + 1)) ∧
    (MAX_REFCOUNT < n → prcClone h n = none) := by
  constructor
  · intro hle
    have hlt : n + 1 < 2 ^ 64 := by
      have : MAX_REFCOUNT + 1 < 2 ^ 64 := by decide
      omega
    simp only [prcClone, Nat.mod_eq_of_lt hlt]
    rw [if_neg (by omega)]
  · intro hgt
    simp only [prcClone]
    rw [if_pos hgt]

/-- C7 witness: a concrete in-range clone and a concrete out-of-range
abort. -/
theorem c7_clone_increments_witness :
    prcClone ⟨7, 9⟩ 2 = some (⟨7, 9⟩, 3) ∧ prcClone ⟨7, 9⟩ (2 ^ 63) = none :=
  ⟨(c7_clone_increments ⟨7, 9⟩ 2).1 (by decide),
   (c7_clone_increments ⟨7, 9⟩ (2 ^ 63)).2 (by decide)⟩

/-- C8: dropping a handle with a representable positive strong count
decrements it by exactly one, and deallocation runs exactly when the
resulting count is zero (equivalently, the old count was 1). -/
theorem c8_drop_decrements (n : Nat) (h1 : 1 ≤ n) (h2 : n < 2 ^ 64) :
    (prcDrop n).1 = n - 1 ∧ ((prcDrop n).2 = true ↔ n - 1 = 0) := by
  have hstored : (n + (2 ^ 64 - 1)) % 2 ^ 64 = n - 1 := by
    rcases Nat.exists_eq_add_of_le h1 with ⟨k, hk⟩
    subst hk
    have hk64 : k < 2 ^ 64 := by omega
    have : 1 + k + (2 ^ 64 - 1) = 2 ^ 64 + k := by omega
    rw [this, Nat.add_mod_left, Nat.mod_eq_of_lt hk64]
    omega
  by_cases hone : n = 1
  · subst hone
    exact ⟨by simp [prcDrop], by simp [prcDrop]⟩
  · constructor
    · simpa [prcDrop, hone] using hstored
    · simp [prcDrop, hone]
      omega

/-- C8 witness: dropping at count 2 does not deallocate, dropping at
count 1 deallocates with the count at zero. -/
theorem c8_drop_decrements_witness :
    ((prcDrop 2).1 = 1 ∧ ((prcDrop 2).2 = true ↔ 1 = 0)) ∧
    ((prcDrop 1).1 = 0 ∧ ((prcDrop 1).2 = true ↔ 0 = 0)) :=
  ⟨c8_drop_decrements 2 (by decide) (by decide),
   c8_drop_decrements 1 (by decide) (by decide)⟩

/-!
Interleaving model of `Pool::intern` running concurrently with
`Pool::collect_garbage` (`src/pool.rs`).  Each thread executing
`intern(s)` is a small program whose atomic actions are exactly the
atomic operations of the code: the `DashSet` lookup-and-clone, the
`DashSet` insert, the reconciliation lookup and insert of `when_failed`
(the latter two with the `gc_lock` read lock held in between), and, per
entry, the check-and-remove of `retain`.  The heap records every live
allocation with its strong count; a cell is deallocated the moment its
count reaches zero.
-/

/-- Program counter of one thread running `Pool::intern(s)`.
`inserting` holds a freshly allocated private cell about to be published;
`reconGet` is the entry of `when_failed`; `reconIns` is `when_failed`
after its lookup missed, holding the `gc_lock` read lock; `done` holds the
returned handle; `dropped` has released it; `failed` is the
`assert!(s)` panic arm of `when_failed`. -/
inductive TPc where
  | start : String → TPc
  | inserting : String → Nat → TPc
  | reconGet : String → Nat → TPc
  | reconIns : String → Nat → TPc
  | done : String → Nat → TPc
  | dropped : String → TPc
  | failed : String → TPc
deriving DecidableEq, Repr

/-- The cell a thread currently owns one strong reference to, with the
content it expects there. -/
def pcRef : TPc → Option (Nat × String)
  | .inserting s j => some (j, s)
  | .reconGet s j => some (j, s)
  | .reconIns s j => some (j, s)
  | .done s j => some (j, s)
  | _ => none

/-- The cell a thread owns privately (allocated but not published): its
`inserting`/`when_failed` argument. -/
def pcPriv : TPc → Option (Nat × String)
  | .inserting s j => some (j, s)
  | .reconGet s j => some (j, s)
  | .reconIns s j => some (j, s)
  | _ => none

/-- Whether the thread is inside `when_failed` between its lookup and its
insert, i.e. holds the `gc_lock` read lock across an atomic action
boundary. -/
def isReconIns : TPc → Bool
  | .reconIns _ _ => true
  | _ => false

/-- Whether the thread owns a strong reference to cell `i`. -/
def pcHolds (i : Nat) (pc : TPc) : Bool :=
  match pcRef pc with
  | some (j, _) => j == i
  | none => false

/-- State of the interleaved system: the live allocations with strong
counts, the published pool entries (pointer and content), the thread
program counters, and the allocator's fresh-pointer counter. -/
structure CState where
  heap : List PoolEntry
  pool : List (Nat × String)
  threads : List TPc
  next : Nat

/-- Number of strong references the pool itself owns on cell `i`. -/
def poolCount (pool : List (Nat × String)) (i : Nat) : Nat :=
  pool.countP (fun q => q.1 == i)

/-- Number of strong references threads own on cell `i`. -/
def thCount (ths : List TPc) (i : Nat) : Nat :=
  ths.countP (pcHolds i)

/-- An `Arc` clone of cell `i`: bump its strong count. -/
def heapBump (h : List PoolEntry) (i : Nat) : List PoolEntry :=
  h.map (fun e => if e.ptr == i then ⟨e.ptr, e.data, e.strong + 1⟩ else e)

/-- An `Arc` drop of cell `i`: decrement its strong count, deallocating
the cell when the count reaches zero. -/
def heapDec (h : List PoolEntry) (i : Nat) : List PoolEntry :=
  h.filterMap (fun e =>
    if e.ptr == i then
      if e.strong ≤ 1 then none else some ⟨e.ptr, e.data, e.strong - 1⟩
    else some e)

/-- One atomic action of the interleaved system.  Thread steps are
identified by a decomposition `l₁ ++ pc :: l₂` of the thread list.
`lookupHit`/`lookupMiss` are the `pool.get` of `intern` (a miss also
materializes the private cell, invisible to other threads);
`insertOk`/`insertFail` are the `pool.insert`; `reconHit` adopts the
winner inside `when_failed` and drops the private cell; `reconMiss`,
`reconInsOk` and `reconInsFail` are `when_failed`'s second lookup and
insert, the failing insert being the `assert!(s)` panic that unwinds and
drops the private cell; `dropDone` is the caller dropping a returned
handle; `gcSweep` is one check-and-remove of `retain` inside
`collect_garbage`, enabled only while no reconciliation holds the
`gc_lock` read lock. -/
inductive Step : CState → CState → Prop where
  | lookupHit (heap : List PoolEntry) (pool : List (Nat × String)) (l₁ l₂ : List TPc)
      (next : Nat) (s : String) (i : Nat) (hq : (i, s) ∈ pool) :
      Step ⟨heap, pool, l₁ ++ .start s :: l₂, next⟩
        ⟨heapBump heap i, pool, l₁ ++ .done s i :: l₂, next⟩
  | lookupMiss (heap : List PoolEntry) (pool : List (Nat × String)) (l₁ l₂ : List TPc)
      (next : Nat) (s : String) (hmiss : ∀ q ∈ pool, q.2 ≠ s) :
      Step ⟨heap, pool, l₁ ++ .start s :: l₂, next⟩
        ⟨heap ++ [⟨next, s, 1⟩], pool, l₁ ++ .inserting s next :: l₂, next + 1⟩
  | insertOk (heap : List PoolEntry) (pool : List (Nat × String)) (l₁ l₂ : List TPc)
      (next : Nat) (s : String) (j : Nat) (hmiss : ∀ q ∈ pool, q.2 ≠ s) :
      Step ⟨heap, pool, l₁ ++ .inserting s j :: l₂, next⟩
        ⟨heapBump heap j, pool ++ [(j, s)], l₁ ++ .done s j :: l₂, next⟩
  | insertFail (heap : List PoolEntry) (pool : List (Nat × String)) (l₁ l₂ : List TPc)
      (next : Nat) (s : String) (j i : Nat) (hq : (i, s) ∈ pool) :
      Step ⟨heap, pool, l₁ ++ .inserting s j :: l₂, next⟩
        ⟨heap, pool, l₁ ++ .reconGet s j :: l₂, next⟩
  | reconHit (heap : List PoolEntry) (pool : List (Nat × String)) (l₁ l₂ : List TPc)
      (next : Nat) (s : String) (j i : Nat) (hq : (i, s) ∈ pool) :
      Step ⟨heap, pool, l₁ ++ .reconGet s j :: l₂, next⟩
        ⟨heapDec (heapBump heap i) j, pool, l₁ ++ .done s i :: l₂, next⟩
  | reconMiss (heap : List PoolEntry) (pool : List (Nat × String)) (l₁ l₂ : List TPc)
      (next : Nat) (s : String) (j : Nat) (hmiss : ∀ q ∈ pool, q.2 ≠ s) :
      Step ⟨heap, pool, l₁ ++ .reconGet s j :: l₂, next⟩
        ⟨heap, pool, l₁ ++ .reconIns s j :: l₂, next⟩
  | reconInsOk (heap : List PoolEntry) (pool : List (Nat × String)) (l₁ l₂ : List TPc)
      (next : Nat) (s : String) (j : Nat) (hmiss : ∀ q ∈ pool, q.2 ≠ s) :
      Step ⟨heap, pool, l₁ ++ .reconIns s j :: l₂, next⟩
        ⟨heapBump heap j, pool ++ [(j, s)], l₁ ++ .done s j :: l₂, next⟩
  | reconInsFail (heap : List PoolEntry) (pool : List (Nat × String)) (l₁ l₂ : List TPc)
      (next : Nat) (s : String) (j i : Nat) (hq : (i, s) ∈ pool) :
      Step ⟨heap, pool, l₁ ++ .reconIns s j :: l₂, next⟩
        ⟨heapDec heap j, pool, l₁ ++ .failed s :: l₂, next⟩
  | dropDone (heap : List PoolEntry) (pool : List (Nat × String)) (l₁ l₂ : List TPc)
      (next : Nat) (s : String) (i : Nat) :
      Step ⟨heap, pool, l₁ ++ .done s i :: l₂, next⟩
        ⟨heapDec heap i, pool, l₁ ++ .dropped s :: l₂, next⟩
  | gcSweep (heap : List PoolEntry) (pool : List (Nat × String)) (threads : List TPc)
      (next : Nat) (s : String) (i : Nat) (hq : (i, s) ∈ pool)
      (hcell : (⟨i, s, 1⟩ : PoolEntry) ∈ heap)
      (hlock : ∀ pc ∈ threads, isReconIns pc = false) :
      Step ⟨heap, pool, threads, next⟩
        ⟨heapDec heap i, pool.filter (fun q => !(q.1 == i)), threads, next⟩

/-- Initial states: empty heap and pool, every thread about to run
`intern` on its own content. -/
def CInit (σ : CState) : Prop :=
  σ.heap = [] ∧ σ.pool = [] ∧ σ.next = 0 ∧ ∀ pc ∈ σ.threads, ∃ s, pc = TPc.start s

/-- States reachable from some initial state by interleaved atomic
actions. -/
inductive Reach : CState → Prop where
  | init (σ : CState) : CInit σ → Reach σ
  | step (σ σ' : CState) : Reach σ → Step σ σ' → Reach σ'

/-- The global invariant of the interleaved system. -/
structure Inv (σ : CState) : Prop where
  nodupPtr : (σ.heap.map (fun e => e.ptr)).Nodup
  nodupData : (σ.pool.map (fun q => q.2)).Nodup
  count : ∀ e ∈ σ.heap, e.strong = poolCount σ.pool e.ptr + thCount σ.threads e.ptr
  poolHeap : ∀ q ∈ σ.pool, ∃ e ∈ σ.heap, e.ptr = q.1 ∧ e.data = q.2
  thHeap : ∀ pc ∈ σ.threads, ∀ i s, pcRef pc = some (i, s) →
    ∃ e ∈ σ.heap, e.ptr = i ∧ e.data = s
  fresh : ∀ e ∈ σ.heap, e.ptr < σ.next
  pos : ∀ e ∈ σ.heap, 1 ≤ e.strong
  priv : ∀ pc ∈ σ.threads, ∀ j s, pcPriv pc = some (j, s) →
    poolCount σ.pool j = 0 ∧ thCount σ.threads j = 1

theorem countP_middle {α : Type} (l₁ l₂ : List α) (a : α) (p : α → Bool) :
    (l₁ ++ a :: l₂).countP p = l₁.countP p + ((if p a then 1 else 0) + l₂.countP p) := by
  rw [List.countP_append, List.countP_cons]
  by_cases h : p a <;> simp [h] <;> omega

theorem thCount_middle (l₁ l₂ : List TPc) (pc : TPc) (i : Nat) :
    thCount (l₁ ++ pc :: l₂) i
      = thCount l₁ i + ((if pcHolds i pc then 1 else 0) + thCount l₂ i) :=
  countP_middle l₁ l₂ pc (pcHolds i)

theorem poolCount_append_single (pool : List (Nat × String)) (j : Nat) (s : String) (i : Nat) :
    poolCount (pool ++ [(j, s)]) i = poolCount pool i + (if j = i then 1 else 0) := by
  unfold poolCount
  rw [List.countP_append, List.countP_cons, List.countP_nil]
  by_cases h : j = i <;> simp [h]

theorem poolCount_pos_of_mem (pool : List (Nat × String)) (i : Nat) (s : String)
    (h : (i, s) ∈ pool) : 1 ≤ poolCount pool i := by
  have : 0 < pool.countP (fun q => q.1 == i) :=
    List.countP_pos_iff.mpr ⟨(i, s), h, by simp⟩
  exact this

theorem poolCount_zero_not_mem (pool : List (Nat × String)) (i : Nat)
    (h : poolCount pool i = 0) : ∀ q ∈ pool, q.1 ≠ i := by
  intro q hq
  have := List.countP_eq_zero.mp h q hq
  simpa using this

theorem poolCount_filter_self (pool : List (Nat × String)) (i : Nat) :
    poolCount (pool.filter (fun q => !(q.1 == i))) i = 0 := by
  unfold poolCount
  apply List.countP_eq_zero.mpr
  intro q hq
  have := (List.mem_filter.mp hq).2
  simpa using this

theorem poolCount_filter_other (pool : List (Nat × String)) (i k : Nat) (hk : k ≠ i) :
    poolCount (pool.filter (fun q => !(q.1 == i))) k = poolCount pool k := by
  unfold poolCount
  rw [List.countP_filter]
  apply List.countP_congr
  intro q _
  by_cases hq : q.1 = k <;> simp [hq, hk]

theorem heapBump_map_ptr (h : List PoolEntry) (i : Nat) :
    (heapBump h i).map (fun e => e.ptr) = h.map (fun e => e.ptr) := by
  unfold heapBump
  rw [List.map_map]
  apply List.map_congr_left
  intro e _
  by_cases hp : e.ptr = i <;> simp [hp]

theorem heapBump_spec (h : List PoolEntry) (i : Nat) :
    ∀ e' ∈ heapBump h i, ∃ e ∈ h,
      e'.ptr = e.ptr ∧ e'.data = e.data ∧
      e'.strong = (if e.ptr = i then e.strong + 1 else e.strong) := by
  intro e' he'
  rcases List.mem_map.mp he' with ⟨e, he, heq⟩
  refine ⟨e, he, ?_⟩
  by_cases hp : e.ptr = i
  · have : (e.ptr == i) = true := by simp [hp]
    rw [this] at heq
    subst heq
    simp [hp]
  · have : (e.ptr == i) = false := by simp [hp]
    rw [this] at heq
    subst heq
    simp [hp]

theorem heapBump_mem_self (h : List PoolEntry) (i : Nat) (e : PoolEntry)
    (he : e ∈ h) (hp : e.ptr = i) :
    (⟨e.ptr, e.data, e.strong + 1⟩ : PoolEntry) ∈ heapBump h i := by
  have : (⟨e.ptr, e.data, e.strong + 1⟩ : PoolEntry)
      = (fun x : PoolEntry => if x.ptr == i then ⟨x.ptr, x.data, x.strong + 1⟩ else x) e := by
    simp [hp]
  rw [this]
  exact List.mem_map_of_mem _ he

theorem heapBump_mem_other (h : List PoolEntry) (i : Nat) (e : PoolEntry)
    (he : e ∈ h) (hp : e.ptr ≠ i) : e ∈ heapBump h i := by
  have : e = (fun x : PoolEntry => if x.ptr == i then ⟨x.ptr, x.data, x.strong + 1⟩ else x) e := by
    simp [hp]
  rw [this]
  exact List.mem_map_of_mem _ he

theorem heapDec_spec (h : List PoolEntry) (i : Nat) :
    ∀ e' ∈ heapDec h i, ∃ e ∈ h,
      e'.ptr = e.ptr ∧ e'.data = e.data ∧
      ((e.ptr ≠ i ∧ e'.strong = e.strong) ∨
        (e.ptr = i ∧ 2 ≤ e.strong ∧ e'.strong = e.strong - 1)) := by
  intro e' he'
  rcases List.mem_filterMap.mp he' with ⟨e, he, hf⟩
  refine ⟨e, he, ?_⟩
  by_cases hp : e.ptr = i
  · have hb : (e.ptr == i) = true := by simp [hp]
    by_cases hs : e.strong ≤ 1
    · rw [hb] at hf
      simp [hs] at hf
    · rw [hb] at hf
      simp [hs] at hf
      subst hf
      exact ⟨rfl, rfl, Or.inr ⟨hp, by omega, rfl⟩⟩
  · have hb : (e.ptr == i) = false := by simp [hp]
    rw [hb] at hf
    simp at hf
    subst hf
    exact ⟨rfl, rfl, Or.inl ⟨hp, rfl⟩⟩

theorem heapDec_mem_other (h : List PoolEntry) (i : Nat) (e : PoolEntry)
    (he : e ∈ h) (hp : e.ptr ≠ i) : e ∈ heapDec h i := by
  apply List.mem_filterMap.mpr
  refine ⟨e, he, ?_⟩
  have hb : (e.ptr == i) = false := by simp [hp]
  simp [hb]

theorem heapDec_mem_dec (h : List PoolEntry) (i : Nat) (e : PoolEntry)
    (he : e ∈ h) (hp : e.ptr = i) (hs : 2 ≤ e.strong) :
    (⟨e.ptr, e.data, e.strong - 1⟩ : PoolEntry) ∈ heapDec h i := by
  apply List.mem_filterMap.mpr
  refine ⟨e, he, ?_⟩
  have hb : (e.ptr == i) = true := by simp [hp]
  rw [hb]
  have hs' : ¬ e.strong ≤ 1 := by omega
  simp [hs']

theorem heapDec_map_ptr_sublist (h : List PoolEntry) (i : Nat) :
    ((heapDec h i).map (fun e => e.ptr)).Sublist (h.map (fun e => e.ptr)) := by
  induction h with
  | nil => simp [heapDec]
  | cons a h ih =>
    show ((List.filterMap _ (a :: h)).map _).Sublist _
    rw [List.filterMap_cons]
    by_cases hp : (a.ptr == i) = true
    · rw [hp]
      by_cases hs : a.strong ≤ 1
      · simp only [if_pos hs]
        exact (ih).cons a.ptr
      · simp only [if_neg hs, List.map_cons]
        exact (ih).cons₂ a.ptr
    · have hb : (a.ptr == i) = false := by simpa using hp
      rw [hb]
      simp only [List.map_cons]
      exact (ih).cons₂ a.ptr

theorem heap_ptr_inj (h : List PoolEntry)
    (hnd : (h.map (fun e => e.ptr)).Nodup) (e e' : PoolEntry)
    (he : e ∈ h) (he' : e' ∈ h) (hp : e.ptr = e'.ptr) : e = e' :=
  List.inj_on_of_nodup_map hnd he he' hp

@[simp] theorem pcHolds_start (k : Nat) (s : String) : pcHolds k (.start s) = false := rfl

@[simp] theorem pcHolds_dropped (k : Nat) (s : String) : pcHolds k (.dropped s) = false := rfl

@[simp] theorem pcHolds_failed (k : Nat) (s : String) : pcHolds k (.failed s) = false := rfl

@[simp] theorem pcHolds_inserting (k j : Nat) (s : String) :
    pcHolds k (.inserting s j) = (j == k) := rfl

@[simp] theorem pcHolds_reconGet (k j : Nat) (s : String) :
    pcHolds k (.reconGet s j) = (j == k) := rfl

@[simp] theorem pcHolds_reconIns (k j : Nat) (s : String) :
    pcHolds k (.reconIns s j) = (j == k) := rfl

@[simp] theorem pcHolds_done (k j : Nat) (s : String) :
    pcHolds k (.done s j) = (j == k) := rfl

theorem pcRef_of_pcPriv (pc : TPc) (x : Nat × String) (h : pcPriv pc = some x) :
    pcRef pc = some x := by
  cases pc <;> simp [pcPriv, pcRef] at h ⊢ <;> exact h

theorem pcHolds_of_pcRef (pc : TPc) (j : Nat) (s : String) (h : pcRef pc = some (j, s)) :
    pcHolds j pc = true := by
  cases pc <;> simp [pcRef] at h <;> simp [pcHolds, pcRef, h]

theorem pcRef_of_pcHolds (pc : TPc) (j : Nat) (h : pcHolds j pc = true) :
    ∃ s, pcRef pc = some (j, s) := by
  cases pc <;> simp [pcHolds, pcRef] at h ⊢ <;> simp [h]

/-- Exchange equation for the counted references when one thread's program
counter is replaced. -/
theorem thCount_update (l₁ l₂ : List TPc) (pc pc' : TPc) (k : Nat) :
    thCount (l₁ ++ pc' :: l₂) k + (if pcHolds k pc then 1 else 0)
      = thCount (l₁ ++ pc :: l₂) k + (if pcHolds k pc' then 1 else 0) := by
  rw [thCount_middle, thCount_middle]
  omega

theorem poolCount_zero_of_no_mem (pool : List (Nat × String)) (i : Nat)
    (h : ∀ q ∈ pool, q.1 ≠ i) : poolCount pool i = 0 :=
  List.countP_eq_zero.mpr fun q hq => by simpa using h q hq

theorem thCount_zero_of_no_holder (l : List TPc) (i : Nat)
    (h : ∀ pc ∈ l, pcHolds i pc = false) : thCount l i = 0 :=
  List.countP_eq_zero.mpr fun pc hpc => by simp [h pc hpc]

theorem thCount_pos_of_holder (l : List TPc) (pc : TPc) (i : Nat)
    (hmem : pc ∈ l) (hp : pcHolds i pc = true) : 1 ≤ thCount l i :=
  List.countP_pos_iff.mpr ⟨pc, hmem, hp⟩

/-- If the middle thread is the unique holder of `j`, no thread of the two
side lists holds `j`. -/
theorem no_other_holder (l₁ l₂ : List TPc) (pc : TPc) (j : Nat)
    (h1 : thCount (l₁ ++ pc :: l₂) j = 1) (hpc : pcHolds j pc = true) :
    ∀ pc' : TPc, pc' ∈ l₁ ∨ pc' ∈ l₂ → pcHolds j pc' = false := by
  intro pc' hmem
  by_contra hcon
  have hp' : pcHolds j pc' = true := by
    cases hb : pcHolds j pc' with
    | true => rfl
    | false => exact absurd hb hcon
  have h2 : 2 ≤ thCount (l₁ ++ pc :: l₂) j := by
    rw [thCount_middle, hpc]
    rcases hmem with hm | hm
    · have h₁ := thCount_pos_of_holder l₁ pc' j hm hp'
      simp
      omega
    · have h₂ := thCount_pos_of_holder l₂ pc' j hm hp'
      simp
      omega
  omega

theorem mem_middle_left {α : Type} (l₁ l₂ : List α) (a x : α) (h : x ∈ l₁) :
    x ∈ l₁ ++ a :: l₂ :=
  List.mem_append_left _ h

theorem mem_middle_right {α : Type} (l₁ l₂ : List α) (a x : α) (h : x ∈ l₂) :
    x ∈ l₁ ++ a :: l₂ :=
  List.mem_append_right _ (List.mem_cons_of_mem _ h)

theorem mem_middle_self {α : Type} (l₁ l₂ : List α) (a : α) : a ∈ l₁ ++ a :: l₂ :=
  List.mem_append_right _ (List.mem_cons_self _ _)

theorem mem_middle_cases {α : Type} (l₁ l₂ : List α) (a x : α) (h : x ∈ l₁ ++ a :: l₂) :
    x ∈ l₁ ∨ x = a ∨ x ∈ l₂ := by
  rcases List.mem_append.mp h with h | h
  · exact .inl h
  · rcases List.mem_cons.mp h with h | h
    · exact .inr (.inl h)
    · exact .inr (.inr h)

theorem heapBump_preserves_ref (h : List PoolEntry) (i k : Nat) (s : String)
    (hex : ∃ e ∈ h, e.ptr = k ∧ e.data = s) :
    ∃ e ∈ heapBump h i, e.ptr = k ∧ e.data = s := by
  rcases hex with ⟨e, he, hptr, hdata⟩
  by_cases hp : e.ptr = i
  · exact ⟨⟨e.ptr, e.data, e.strong + 1⟩, heapBump_mem_self h i e he hp, hptr, hdata⟩
  · exact ⟨e, heapBump_mem_other h i e he hp, hptr, hdata⟩

theorem heapDec_preserves_ref_ne (h : List PoolEntry) (i k : Nat) (s : String)
    (hex : ∃ e ∈ h, e.ptr = k ∧ e.data = s) (hk : k ≠ i) :
    ∃ e ∈ heapDec h i, e.ptr = k ∧ e.data = s := by
  rcases hex with ⟨e, he, hptr, hdata⟩
  exact ⟨e, heapDec_mem_other h i e he (by rw [hptr]; exact hk), hptr, hdata⟩

/-- Replacing one thread's program counter by one with the same reference
footprint preserves the invariant; heap, pool and counter untouched. -/
theorem inv_pc_same_ref (heap : List PoolEntry) (pool : List (Nat × String))
    (l₁ l₂ : List TPc) (next : Nat) (pc pc' : TPc)
    (href : pcRef pc' = pcRef pc) (hpriv : pcPriv pc' = pcPriv pc)
    (hinv : Inv ⟨heap, pool, l₁ ++ pc :: l₂, next⟩) :
    Inv ⟨heap, pool, l₁ ++ pc' :: l₂, next⟩ := by
  have hh : ∀ k, pcHolds k pc' = pcHolds k pc := by
    intro k
    unfold pcHolds
    rw [href]
  have hTC : ∀ k, thCount (l₁ ++ pc' :: l₂) k = thCount (l₁ ++ pc :: l₂) k := by
    intro k
    have hu := thCount_update l₁ l₂ pc pc' k
    rw [hh] at hu
    omega
  refine ⟨hinv.nodupPtr, hinv.nodupData, ?_, hinv.poolHeap, ?_, hinv.fresh, hinv.pos, ?_⟩
  · intro e he
    show e.strong = poolCount pool e.ptr + thCount (l₁ ++ pc' :: l₂) e.ptr
    rw [hTC]
    exact hinv.count e he
  · intro pc'' hmem i s hr
    rcases mem_middle_cases l₁ l₂ pc' pc'' hmem with hm | hm | hm
    · exact hinv.thHeap pc'' (mem_middle_left _ _ _ _ hm) i s hr
    · subst hm
      exact hinv.thHeap pc (mem_middle_self _ _ _) i s (href ▸ hr)
    · exact hinv.thHeap pc'' (mem_middle_right _ _ _ _ hm) i s hr
  · intro pc'' hmem j s hp
    have key : poolCount pool j = 0 ∧ thCount (l₁ ++ pc :: l₂) j = 1 := by
      rcases mem_middle_cases l₁ l₂ pc' pc'' hmem with hm | hm | hm
      · exact hinv.priv pc'' (mem_middle_left _ _ _ _ hm) j s hp
      · subst hm
        exact hinv.priv pc (mem_middle_self _ _ _) j s (hpriv ▸ hp)
      · exact hinv.priv pc'' (mem_middle_right _ _ _ _ hm) j s hp
    exact ⟨key.1, by rw [hTC]; exact key.2⟩

/-- The `lookupHit` action preserves the invariant. -/
theorem inv_lookupHit (heap : List PoolEntry) (pool : List (Nat × String))
    (l₁ l₂ : List TPc) (next : Nat) (s : String) (i : Nat)
    (hq : (i, s) ∈ pool)
    (hinv : Inv ⟨heap, pool, l₁ ++ .start s :: l₂, next⟩) :
    Inv ⟨heapBump heap i, pool, l₁ ++ .done s i :: l₂, next⟩ := by
  have hTC : ∀ k, thCount (l₁ ++ TPc.done s i :: l₂) k
      = thCount (l₁ ++ TPc.start s :: l₂) k + (if i = k then 1 else 0) := by
    intro k
    have hu := thCount_update l₁ l₂ (TPc.start s) (TPc.done s i) k
    by_cases hik : i = k
    · simp [hik] at hu ⊢
      omega
    · simp [hik] at hu ⊢
      omega
  refine ⟨?_, hinv.nodupData, ?_, ?_, ?_, ?_, ?_, ?_⟩
  · show ((heapBump heap i).map (fun e => e.ptr)).Nodup
    rw [heapBump_map_ptr]
    exact hinv.nodupPtr
  · intro e' he'
    rcases heapBump_spec heap i e' he' with ⟨e, he, hptr, _, hstrong⟩
    show e'.strong = poolCount pool e'.ptr + thCount (l₁ ++ TPc.done s i :: l₂) e'.ptr
    rw [hptr, hTC]
    have hc : e.strong = poolCount pool e.ptr + thCount (l₁ ++ TPc.start s :: l₂) e.ptr :=
      hinv.count e he
    by_cases hip : e.ptr = i
    · have h1 : e'.strong = e.strong + 1 := by rw [hstrong, if_pos hip]
      have h2 : (if i = e.ptr then (1 : Nat) else 0) = 1 := if_pos hip.symm
      rw [h1, h2]
      omega
    · have h1 : e'.strong = e.strong := by rw [hstrong, if_neg hip]
      have h2 : (if i = e.ptr then (1 : Nat) else 0) = 0 := if_neg (fun h => hip h.symm)
      rw [h1, h2]
      omega
  · intro q hq'
    exact heapBump_preserves_ref heap i q.1 q.2 (hinv.poolHeap q hq')
  · intro pc'' hmem k s'' hr
    rcases mem_middle_cases l₁ l₂ (TPc.done s i) pc'' hmem with hm | hm | hm
    · exact heapBump_preserves_ref _ _ _ _
        (hinv.thHeap pc'' (mem_middle_left _ _ _ _ hm) k s'' hr)
    · subst hm
      have hr' : (i, s) = (k, s'') := Option.some.inj hr
      injection hr' with hk hs
      subst hk
      subst hs
      exact heapBump_preserves_ref _ _ _ _ (hinv.poolHeap (i, s) hq)
    · exact heapBump_preserves_ref _ _ _ _
        (hinv.thHeap pc'' (mem_middle_right _ _ _ _ hm) k s'' hr)
  · intro e' he'
    rcases heapBump_spec heap i e' he' with ⟨e, he, hptr, _, _⟩
    rw [hptr]
    exact hinv.fresh e he
  · intro e' he'
    rcases heapBump_spec heap i e' he' with ⟨e, he, _, _, hstrong⟩
    have := hinv.pos e he
    rw [hstrong]
    by_cases hip : e.ptr = i
    · rw [if_pos hip]
      omega
    · rw [if_neg hip]
      omega
  · intro pc'' hmem j' s'' hp
    rcases mem_middle_cases l₁ l₂ (TPc.done s i) pc'' hmem with hm | hm | hm
    · obtain ⟨k1, k2⟩ : poolCount pool j' = 0 ∧ thCount (l₁ ++ TPc.start s :: l₂) j' = 1 :=
        hinv.priv pc'' (mem_middle_left _ _ _ _ hm) j' s'' hp
      have hij : i ≠ j' := by
        intro he
        have := poolCount_pos_of_mem pool i s hq
        rw [he] at this
        omega
      refine ⟨k1, ?_⟩
      rw [hTC, if_neg hij]
      omega
    · subst hm
      simp [pcPriv] at hp
    · obtain ⟨k1, k2⟩ : poolCount pool j' = 0 ∧ thCount (l₁ ++ TPc.start s :: l₂) j' = 1 :=
        hinv.priv pc'' (mem_middle_right _ _ _ _ hm) j' s'' hp
      have hij : i ≠ j' := by
        intro he
        have := poolCount_pos_of_mem pool i s hq
        rw [he] at this
        omega
      refine ⟨k1, ?_⟩
      rw [hTC, if_neg hij]
      omega

/-- The `lookupMiss` action preserves the invariant. -/
theorem inv_lookupMiss (heap : List PoolEntry) (pool : List (Nat × String))
    (l₁ l₂ : List TPc) (next : Nat) (s : String)
    (hinv : Inv ⟨heap, pool, l₁ ++ .start s :: l₂, next⟩) :
    Inv ⟨heap ++ [⟨next, s, 1⟩], pool, l₁ ++ .inserting s next :: l₂, next + 1⟩ := by
  have hfreshT : ∀ pc ∈ l₁ ++ TPc.start s :: l₂, pcHolds next pc = false := by
    intro pc hpc
    cases hb : pcHolds next pc with
    | false => rfl
    | true =>
      rcases pcRef_of_pcHolds pc next hb with ⟨s', href⟩
      obtain ⟨e, he, hptr, _⟩ : ∃ e ∈ heap, e.ptr = next ∧ e.data = s' :=
        hinv.thHeap pc hpc next s' href
      have hlt : e.ptr < next := hinv.fresh e he
      rw [hptr] at hlt
      exact absurd hlt (by omega)
  have hthnext : thCount (l₁ ++ TPc.start s :: l₂) next = 0 :=
    thCount_zero_of_no_holder _ _ hfreshT
  have hpoolnext : poolCount pool next = 0 := by
    apply poolCount_zero_of_no_mem
    intro q hq hq1
    obtain ⟨e, he, hptr, _⟩ : ∃ e ∈ heap, e.ptr = q.1 ∧ e.data = q.2 := hinv.poolHeap q hq
    have hlt : e.ptr < next := hinv.fresh e he
    rw [hptr, hq1] at hlt
    omega
  have hTC : ∀ k, thCount (l₁ ++ TPc.inserting s next :: l₂) k
      = thCount (l₁ ++ TPc.start s :: l₂) k + (if next = k then 1 else 0) := by
    intro k
    have hu := thCount_update l₁ l₂ (TPc.start s) (TPc.inserting s next) k
    by_cases hik : next = k
    · simp [hik] at hu ⊢
      omega
    · simp [hik] at hu ⊢
      omega
  refine ⟨?_, hinv.nodupData, ?_, ?_, ?_, ?_, ?_, ?_⟩
  · show ((heap ++ [(⟨next, s, 1⟩ : PoolEntry)]).map (fun e => e.ptr)).Nodup
    rw [List.map_append, List.nodup_append]
    refine ⟨hinv.nodupPtr, by simp, ?_⟩
    intro a ha hb
    simp at hb
    rcases List.mem_map.mp ha with ⟨e, he, hptr⟩
    have hfr : e.ptr < next := hinv.fresh e he
    rw [hptr, hb] at hfr
    omega
  · intro e' he'
    show e'.strong = poolCount pool e'.ptr
      + thCount (l₁ ++ TPc.inserting s next :: l₂) e'.ptr
    rcases List.mem_append.mp he' with hm | hm
    · have hc : e'.strong = poolCount pool e'.ptr
          + thCount (l₁ ++ TPc.start s :: l₂) e'.ptr := hinv.count e' hm
      have hfr : e'.ptr < next := hinv.fresh e' hm
      have hne : next ≠ e'.ptr := by omega
      rw [hTC, if_neg hne]
      omega
    · have he'' : e' = ⟨next, s, 1⟩ := by simpa using hm
      subst he''
      rw [hTC]
      simp [hpoolnext, hthnext]
  · intro q hq
    show ∃ e ∈ heap ++ [(⟨next, s, 1⟩ : PoolEntry)], e.ptr = q.1 ∧ e.data = q.2
    obtain ⟨e, he, hx⟩ := hinv.poolHeap q hq
    exact ⟨e, List.mem_append_left _ he, hx⟩
  · intro pc'' hmem k s'' hr
    show ∃ e ∈ heap ++ [(⟨next, s, 1⟩ : PoolEntry)], e.ptr = k ∧ e.data = s''
    rcases mem_middle_cases l₁ l₂ (TPc.inserting s next) pc'' hmem with hm | hm | hm
    · obtain ⟨e, he, hx⟩ := hinv.thHeap pc'' (mem_middle_left _ _ _ _ hm) k s'' hr
      exact ⟨e, List.mem_append_left _ he, hx⟩
    · subst hm
      have hr' : (next, s) = (k, s'') := Option.some.inj hr
      injection hr' with hk hs
      subst hk
      subst hs
      exact ⟨⟨next, s, 1⟩, List.mem_append_right _ (by simp), rfl, rfl⟩
    · obtain ⟨e, he, hx⟩ := hinv.thHeap pc'' (mem_middle_right _ _ _ _ hm) k s'' hr
      exact ⟨e, List.mem_append_left _ he, hx⟩
  · intro e' he'
    show e'.ptr < next + 1
    rcases List.mem_append.mp he' with hm | hm
    · have hfr : e'.ptr < next := hinv.fresh e' hm
      omega
    · have he'' : e' = ⟨next, s, 1⟩ := by simpa using hm
      subst he''
      show next < next + 1
      omega
  · intro e' he'
    show 1 ≤ e'.strong
    rcases List.mem_append.mp he' with hm | hm
    · exact hinv.pos e' hm
    · have he'' : e' = ⟨next, s, 1⟩ := by simpa using hm
      subst he''
      exact Nat.le_refl 1
  · intro pc'' hmem j' s'' hp
    rcases mem_middle_cases l₁ l₂ (TPc.inserting s next) pc'' hmem with hm | hm | hm
    · obtain ⟨k1, k2⟩ : poolCount pool j' = 0 ∧ thCount (l₁ ++ TPc.start s :: l₂) j' = 1 :=
        hinv.priv pc'' (mem_middle_left _ _ _ _ hm) j' s'' hp
      have hne : next ≠ j' := by
        obtain ⟨e, he, hptr, _⟩ : ∃ e ∈ heap, e.ptr = j' ∧ e.data = s'' :=
          hinv.thHeap pc'' (mem_middle_left _ _ _ _ hm) j' s''
            (pcRef_of_pcPriv pc'' (j', s'') hp)
        have hfr : e.ptr < next := hinv.fresh e he
        omega
      refine ⟨k1, ?_⟩
      rw [hTC, if_neg hne]
      omega
    · subst hm
      have hp' : (next, s) = (j', s'') := Option.some.inj hp
      injection hp' with hk hs
      subst hk
      subst hs
      refine ⟨hpoolnext, ?_⟩
      rw [hTC, if_pos rfl]
      omega
    · obtain ⟨k1, k2⟩ : poolCount pool j' = 0 ∧ thCount (l₁ ++ TPc.start s :: l₂) j' = 1 :=
        hinv.priv pc'' (mem_middle_right _ _ _ _ hm) j' s'' hp
      have hne : next ≠ j' := by
        obtain ⟨e, he, hptr, _⟩ : ∃ e ∈ heap, e.ptr = j' ∧ e.data = s'' :=
          hinv.thHeap pc'' (mem_middle_right _ _ _ _ hm) j' s''
            (pcRef_of_pcPriv pc'' (j', s'') hp)
        have hfr : e.ptr < next := hinv.fresh e he
        omega
      refine ⟨k1, ?_⟩
      rw [hTC, if_neg hne]
      omega

/-- Publishing a privately held cell into the pool (the successful insert
of `intern` or of `when_failed`) preserves the invariant. -/
theorem inv_publish (heap : List PoolEntry) (pool : List (Nat × String))
    (l₁ l₂ : List TPc) (next : Nat) (s : String) (j : Nat) (pcOld : TPc)
    (href : pcRef pcOld = some (j, s)) (hprv : pcPriv pcOld = some (j, s))
    (hmiss : ∀ q ∈ pool, q.2 ≠ s)
    (hinv : Inv ⟨heap, pool, l₁ ++ pcOld :: l₂, next⟩) :
    Inv ⟨heapBump heap j, pool ++ [(j, s)], l₁ ++ .done s j :: l₂, next⟩ := by
  obtain ⟨hpool0, hth1⟩ : poolCount pool j = 0 ∧ thCount (l₁ ++ pcOld :: l₂) j = 1 :=
    hinv.priv pcOld (mem_middle_self _ _ _) j s hprv
  have hh : ∀ k, pcHolds k pcOld = (j == k) := by
    intro k
    unfold pcHolds
    rw [href]
  have hTC : ∀ k, thCount (l₁ ++ TPc.done s j :: l₂) k = thCount (l₁ ++ pcOld :: l₂) k := by
    intro k
    have hu := thCount_update l₁ l₂ pcOld (TPc.done s j) k
    rw [hh] at hu
    simp at hu
    omega
  have hPC : ∀ k, poolCount (pool ++ [(j, s)]) k
      = poolCount pool k + (if j = k then 1 else 0) :=
    fun k => poolCount_append_single pool j s k
  refine ⟨?_, ?_, ?_, ?_, ?_, ?_, ?_, ?_⟩
  · show ((heapBump heap j).map (fun e => e.ptr)).Nodup
    rw [heapBump_map_ptr]
    exact hinv.nodupPtr
  · show ((pool ++ [(j, s)]).map (fun q => q.2)).Nodup
    rw [List.map_append, List.nodup_append]
    refine ⟨hinv.nodupData, by simp, ?_⟩
    intro a ha hb
    simp at hb
    subst hb
    rcases List.mem_map.mp ha with ⟨q, hq, hdata⟩
    exact hmiss q hq hdata
  · intro e' he'
    rcases heapBump_spec heap j e' he' with ⟨e, he, hptr, _, hstrong⟩
    show e'.strong = poolCount (pool ++ [(j, s)]) e'.ptr
      + thCount (l₁ ++ TPc.done s j :: l₂) e'.ptr
    have hc : e.strong = poolCount pool e.ptr + thCount (l₁ ++ pcOld :: l₂) e.ptr :=
      hinv.count e he
    rw [hptr, hPC, hTC]
    by_cases hjp : e.ptr = j
    · have h1 : e'.strong = e.strong + 1 := by rw [hstrong, if_pos hjp]
      have h2 : (if j = e.ptr then (1 : Nat) else 0) = 1 := if_pos hjp.symm
      rw [h1, h2]
      omega
    · have h1 : e'.strong = e.strong := by rw [hstrong, if_neg hjp]
      have h2 : (if j = e.ptr then (1 : Nat) else 0) = 0 := if_neg (fun h => hjp h.symm)
      rw [h1, h2]
      omega
  · intro q hq
    show ∃ e ∈ heapBump heap j, e.ptr = q.1 ∧ e.data = q.2
    rcases List.mem_append.mp hq with hm | hm
    · exact heapBump_preserves_ref heap j q.1 q.2 (hinv.poolHeap q hm)
    · have hq' : q = (j, s) := by simpa using hm
      subst hq'
      exact heapBump_preserves_ref heap j j s
        (hinv.thHeap pcOld (mem_middle_self _ _ _) j s href)
  · intro pc'' hmem k s'' hr
    show ∃ e ∈ heapBump heap j, e.ptr = k ∧ e.data = s''
    rcases mem_middle_cases l₁ l₂ (TPc.done s j) pc'' hmem with hm | hm | hm
    · exact heapBump_preserves_ref _ _ _ _
        (hinv.thHeap pc'' (mem_middle_left _ _ _ _ hm) k s'' hr)
    · subst hm
      have hr' : (j, s) = (k, s'') := Option.some.inj hr
      injection hr' with hk hs
      subst hk
      subst hs
      exact heapBump_preserves_ref _ _ _ _
        (hinv.thHeap pcOld (mem_middle_self _ _ _) j s href)
    · exact heapBump_preserves_ref _ _ _ _
        (hinv.thHeap pc'' (mem_middle_right _ _ _ _ hm) k s'' hr)
  · intro e' he'
    rcases heapBump_spec heap j e' he' with ⟨e, he, hptr, _, _⟩
    show e'.ptr < next
    rw [hptr]
    exact hinv.fresh e he
  · intro e' he'
    rcases heapBump_spec heap j e' he' with ⟨e, he, _, _, hstrong⟩
    have hp := hinv.pos e he
    show 1 ≤ e'.strong
    rw [hstrong]
    by_cases hjp : e.ptr = j
    · rw [if_pos hjp]
      omega
    · rw [if_neg hjp]
      omega
  · intro pc'' hmem j' s'' hp
    rcases mem_middle_cases l₁ l₂ (TPc.done s j) pc'' hmem with hm | hm | hm
    · obtain ⟨k1, k2⟩ : poolCount pool j' = 0 ∧ thCount (l₁ ++ pcOld :: l₂) j' = 1 :=
        hinv.priv pc'' (mem_middle_left _ _ _ _ hm) j' s'' hp
      have hpcH : pcHolds j' pc'' = true :=
        pcHolds_of_pcRef pc'' j' s'' (pcRef_of_pcPriv pc'' (j', s'') hp)
      have hjj : j ≠ j' := by
        intro he
        have hold : pcHolds j' pcOld = true := by rw [hh, he]; simp
        have := no_other_holder l₁ l₂ pcOld j' k2 hold pc'' (.inl hm)
        rw [hpcH] at this
        simp at this
      refine ⟨?_, ?_⟩
      · rw [hPC, if_neg hjj, k1]
      · rw [hTC]
        exact k2
    · subst hm
      simp [pcPriv] at hp
    · obtain ⟨k1, k2⟩ : poolCount pool j' = 0 ∧ thCount (l₁ ++ pcOld :: l₂) j' = 1 :=
        hinv.priv pc'' (mem_middle_right _ _ _ _ hm) j' s'' hp
      have hpcH : pcHolds j' pc'' = true :=
        pcHolds_of_pcRef pc'' j' s'' (pcRef_of_pcPriv pc'' (j', s'') hp)
      have hjj : j ≠ j' := by
        intro he
        have hold : pcHolds j' pcOld = true := by rw [hh, he]; simp
        have := no_other_holder l₁ l₂ pcOld j' k2 hold pc'' (.inr hm)
        rw [hpcH] at this
        simp at this
      refine ⟨?_, ?_⟩
      · rw [hPC, if_neg hjj, k1]
      · rw [hTC]
        exact k2

/-- The `reconHit` action (adopting the winner inside `when_failed` and
dropping the private cell) preserves the invariant. -/
theorem inv_reconHit (heap : List PoolEntry) (pool : List (Nat × String))
    (l₁ l₂ : List TPc) (next : Nat) (s : String) (j i : Nat)
    (hq : (i, s) ∈ pool)
    (hinv : Inv ⟨heap, pool, l₁ ++ .reconGet s j :: l₂, next⟩) :
    Inv ⟨heapDec (heapBump heap i) j, pool, l₁ ++ .done s i :: l₂, next⟩ := by
  obtain ⟨hpool0, hth1⟩ : poolCount pool j = 0 ∧ thCount (l₁ ++ TPc.reconGet s j :: l₂) j = 1 :=
    hinv.priv (.reconGet s j) (mem_middle_self _ _ _) j s rfl
  have hpooli : 1 ≤ poolCount pool i := poolCount_pos_of_mem pool i s hq
  have hij : i ≠ j := by
    intro he
    rw [he, hpool0] at hpooli
    omega
  have hcnt_j : ∀ e ∈ heap, e.ptr = j → e.strong = 1 := by
    intro e he hp
    have hc : e.strong = poolCount pool e.ptr + thCount (l₁ ++ TPc.reconGet s j :: l₂) e.ptr :=
      hinv.count e he
    rw [hp, hpool0, hth1] at hc
    omega
  have hTCj : thCount (l₁ ++ TPc.done s i :: l₂) j = 0 := by
    have hu := thCount_update l₁ l₂ (TPc.reconGet s j) (TPc.done s i) j
    simp [hij] at hu
    omega
  have hTCi : thCount (l₁ ++ TPc.done s i :: l₂) i
      = thCount (l₁ ++ TPc.reconGet s j :: l₂) i + 1 := by
    have hu := thCount_update l₁ l₂ (TPc.reconGet s j) (TPc.done s i) i
    have hji : j ≠ i := Ne.symm hij
    simp [hji] at hu
    omega
  have hTCo : ∀ k, k ≠ i → k ≠ j → thCount (l₁ ++ TPc.done s i :: l₂) k
      = thCount (l₁ ++ TPc.reconGet s j :: l₂) k := by
    intro k hki hkj
    have hu := thCount_update l₁ l₂ (TPc.reconGet s j) (TPc.done s i) k
    have hjk : j ≠ k := fun h => hkj h.symm
    have hik : i ≠ k := fun h => hki h.symm
    simp [hjk, hik] at hu
    omega
  have hnoJ : ∀ pc' : TPc, pc' ∈ l₁ ∨ pc' ∈ l₂ → pcHolds j pc' = false :=
    no_other_holder l₁ l₂ (.reconGet s j) j hth1 (by simp)
  refine ⟨?_, hinv.nodupData, ?_, ?_, ?_, ?_, ?_, ?_⟩
  · show ((heapDec (heapBump heap i) j).map (fun e => e.ptr)).Nodup
    have hsub := heapDec_map_ptr_sublist (heapBump heap i) j
    rw [heapBump_map_ptr] at hsub
    exact List.Nodup.sublist hsub hinv.nodupPtr
  · intro e'' he''
    show e''.strong = poolCount pool e''.ptr + thCount (l₁ ++ TPc.done s i :: l₂) e''.ptr
    rcases heapDec_spec _ j e'' he'' with ⟨e', he', hptr1, _, hcase1⟩
    rcases heapBump_spec heap i e' he' with ⟨e, he, hptr2, _, hstrong2⟩
    have hc : e.strong = poolCount pool e.ptr
        + thCount (l₁ ++ TPc.reconGet s j :: l₂) e.ptr := hinv.count e he
    rcases hcase1 with ⟨hnej, hsame⟩ | ⟨heqj, hge, hdec⟩
    · rw [hptr1, hptr2]
      by_cases hei : e.ptr = i
      · have h1 : e'.strong = e.strong + 1 := by rw [hstrong2, if_pos hei]
        rw [hei] at hc ⊢
        rw [hTCi]
        omega
      · have h1 : e'.strong = e.strong := by rw [hstrong2, if_neg hei]
        have hnej' : e.ptr ≠ j := by rw [← hptr2]; exact hnej
        rw [hTCo e.ptr hei hnej']
        omega
    · have hei : e.ptr ≠ i := by
        rw [← hptr2, heqj]
        exact Ne.symm hij
      have h1 : e'.strong = e.strong := by rw [hstrong2, if_neg hei]
      have hj1 : e.strong = 1 := hcnt_j e he (by rw [← hptr2, heqj])
      omega
  · intro q hq'
    show ∃ e ∈ heapDec (heapBump heap i) j, e.ptr = q.1 ∧ e.data = q.2
    have hqj : q.1 ≠ j := poolCount_zero_not_mem pool j hpool0 q hq'
    exact heapDec_preserves_ref_ne _ j q.1 q.2
      (heapBump_preserves_ref heap i q.1 q.2 (hinv.poolHeap q hq')) hqj
  · intro pc'' hmem k s'' hr
    show ∃ e ∈ heapDec (heapBump heap i) j, e.ptr = k ∧ e.data = s''
    rcases mem_middle_cases l₁ l₂ (TPc.done s i) pc'' hmem with hm | hm | hm
    · have hkj : k ≠ j := by
        intro he
        have hfls := hnoJ pc'' (.inl hm)
        have htr : pcHolds j pc'' = true :=
          pcHolds_of_pcRef pc'' j s'' (he ▸ hr)
        rw [htr] at hfls
        simp at hfls
      exact heapDec_preserves_ref_ne _ j k s''
        (heapBump_preserves_ref heap i k s''
          (hinv.thHeap pc'' (mem_middle_left _ _ _ _ hm) k s'' hr)) hkj
    · subst hm
      have hr' : (i, s) = (k, s'') := Option.some.inj hr
      injection hr' with hk hs
      subst hk
      subst hs
      exact heapDec_preserves_ref_ne _ j i s
        (heapBump_preserves_ref heap i i s (hinv.poolHeap (i, s) hq)) hij
    · have hkj : k ≠ j := by
        intro he
        have hfls := hnoJ pc'' (.inr hm)
        have htr : pcHolds j pc'' = true :=
          pcHolds_of_pcRef pc'' j s'' (he ▸ hr)
        rw [htr] at hfls
        simp at hfls
      exact heapDec_preserves_ref_ne _ j k s''
        (heapBump_preserves_ref heap i k s''
          (hinv.thHeap pc'' (mem_middle_right _ _ _ _ hm) k s'' hr)) hkj
  · intro e'' he''
    show e''.ptr < next
    rcases heapDec_spec _ j e'' he'' with ⟨e', he', hptr1, _, _⟩
    rcases heapBump_spec heap i e' he' with ⟨e, he, hptr2, _, _⟩
    rw [hptr1, hptr2]
    exact hinv.fresh e he
  · intro e'' he''
    show 1 ≤ e''.strong
    rcases heapDec_spec _ j e'' he'' with ⟨e', he', _, _, hcase1⟩
    rcases heapBump_spec heap i e' he' with ⟨e, he, _, _, hstrong2⟩
    have hp := hinv.pos e he
    have hp' : 1 ≤ e'.strong := by
      rw [hstrong2]
      by_cases hei : e.ptr = i
      · rw [if_pos hei]
        omega
      · rw [if_neg hei]
        omega
    rcases hcase1 with ⟨_, hsame⟩ | ⟨_, hge, hdec⟩
    · omega
    · omega
  · intro pc'' hmem j' s'' hp
    rcases mem_middle_cases l₁ l₂ (TPc.done s i) pc'' hmem with hm | hm | hm
    · obtain ⟨k1, k2⟩ : poolCount pool j' = 0
          ∧ thCount (l₁ ++ TPc.reconGet s j :: l₂) j' = 1 :=
        hinv.priv pc'' (mem_middle_left _ _ _ _ hm) j' s'' hp
      have hji : j' ≠ i := by
        intro he
        rw [he] at k1
        omega
      have hjj : j' ≠ j := by
        intro he
        have hfls := hnoJ pc'' (.inl hm)
        have htr : pcHolds j pc'' = true :=
          pcHolds_of_pcRef pc'' j s'' (by rw [← he]; exact pcRef_of_pcPriv pc'' (j', s'') hp)
        rw [htr] at hfls
        simp at hfls
      refine ⟨k1, ?_⟩
      rw [hTCo j' hji hjj]
      exact k2
    · subst hm
      simp [pcPriv] at hp
    · obtain ⟨k1, k2⟩ : poolCount pool j' = 0
          ∧ thCount (l₁ ++ TPc.reconGet s j :: l₂) j' = 1 :=
        hinv.priv pc'' (mem_middle_right _ _ _ _ hm) j' s'' hp
      have hji : j' ≠ i := by
        intro he
        rw [he] at k1
        omega
      have hjj : j' ≠ j := by
        intro he
        have hfls := hnoJ pc'' (.inr hm)
        have htr : pcHolds j pc'' = true :=
          pcHolds_of_pcRef pc'' j s'' (by rw [← he]; exact pcRef_of_pcPriv pc'' (j', s'') hp)
        rw [htr] at hfls
        simp at hfls
      refine ⟨k1, ?_⟩
      rw [hTCo j' hji hjj]
      exact k2

/-- Two distinct thread positions holding the same cell force its counted
references to at least two. -/
theorem two_holders (l₁ l₂ : List TPc) (pc : TPc) (j : Nat)
    (hpc : pcHolds j pc = true) (pc' : TPc) (hm : pc' ∈ l₁ ∨ pc' ∈ l₂)
    (hp' : pcHolds j pc' = true) : 2 ≤ thCount (l₁ ++ pc :: l₂) j := by
  rw [thCount_middle, hpc]
  rcases hm with hm | hm
  · have h₁ := thCount_pos_of_holder l₁ pc' j hm hp'
    simp
    omega
  · have h₂ := thCount_pos_of_holder l₂ pc' j hm hp'
    simp
    omega

/-- The `reconInsFail` action (the `assert!(s)` panic unwinding and
dropping the private cell) preserves the invariant. -/
theorem inv_reconInsFail (heap : List PoolEntry) (pool : List (Nat × String))
    (l₁ l₂ : List TPc) (next : Nat) (s : String) (j : Nat)
    (hinv : Inv ⟨heap, pool, l₁ ++ .reconIns s j :: l₂, next⟩) :
    Inv ⟨heapDec heap j, pool, l₁ ++ .failed s :: l₂, next⟩ := by
  obtain ⟨hpool0, hth1⟩ : poolCount pool j = 0
      ∧ thCount (l₁ ++ TPc.reconIns s j :: l₂) j = 1 :=
    hinv.priv (.reconIns s j) (mem_middle_self _ _ _) j s rfl
  have hcnt_j : ∀ e ∈ heap, e.ptr = j → e.strong = 1 := by
    intro e he hp
    have hc : e.strong = poolCount pool e.ptr + thCount (l₁ ++ TPc.reconIns s j :: l₂) e.ptr :=
      hinv.count e he
    rw [hp, hpool0, hth1] at hc
    omega
  have hTCo : ∀ k, k ≠ j → thCount (l₁ ++ TPc.failed s :: l₂) k
      = thCount (l₁ ++ TPc.reconIns s j :: l₂) k := by
    intro k hkj
    have hu := thCount_update l₁ l₂ (TPc.reconIns s j) (TPc.failed s) k
    have hjk : j ≠ k := fun h => hkj h.symm
    simp [hjk] at hu
    omega
  have hnoJ : ∀ pc' : TPc, pc' ∈ l₁ ∨ pc' ∈ l₂ → pcHolds j pc' = false :=
    no_other_holder l₁ l₂ (.reconIns s j) j hth1 (by simp)
  refine ⟨?_, hinv.nodupData, ?_, ?_, ?_, ?_, ?_, ?_⟩
  · show ((heapDec heap j).map (fun e => e.ptr)).Nodup
    exact List.Nodup.sublist (heapDec_map_ptr_sublist heap j) hinv.nodupPtr
  · intro e'' he''
    show e''.strong = poolCount pool e''.ptr + thCount (l₁ ++ TPc.failed s :: l₂) e''.ptr
    rcases heapDec_spec heap j e'' he'' with ⟨e, he, hptr, _, hcase⟩
    have hc : e.strong = poolCount pool e.ptr
        + thCount (l₁ ++ TPc.reconIns s j :: l₂) e.ptr := hinv.count e he
    rcases hcase with ⟨hnej, hsame⟩ | ⟨heqj, hge, _⟩
    · rw [hptr, hTCo e.ptr hnej]
      omega
    · have := hcnt_j e he heqj
      omega
  · intro q hq'
    show ∃ e ∈ heapDec heap j, e.ptr = q.1 ∧ e.data = q.2
    have hqj : q.1 ≠ j := poolCount_zero_not_mem pool j hpool0 q hq'
    exact heapDec_preserves_ref_ne heap j q.1 q.2 (hinv.poolHeap q hq') hqj
  · intro pc'' hmem k s'' hr
    show ∃ e ∈ heapDec heap j, e.ptr = k ∧ e.data = s''
    rcases mem_middle_cases l₁ l₂ (TPc.failed s) pc'' hmem with hm | hm | hm
    · have hkj : k ≠ j := by
        intro he
        have hfls := hnoJ pc'' (.inl hm)
        have htr : pcHolds j pc'' = true := pcHolds_of_pcRef pc'' j s'' (he ▸ hr)
        rw [htr] at hfls
        simp at hfls
      exact heapDec_preserves_ref_ne heap j k s''
        (hinv.thHeap pc'' (mem_middle_left _ _ _ _ hm) k s'' hr) hkj
    · subst hm
      simp [pcRef] at hr
    · have hkj : k ≠ j := by
        intro he
        have hfls := hnoJ pc'' (.inr hm)
        have htr : pcHolds j pc'' = true := pcHolds_of_pcRef pc'' j s'' (he ▸ hr)
        rw [htr] at hfls
        simp at hfls
      exact heapDec_preserves_ref_ne heap j k s''
        (hinv.thHeap pc'' (mem_middle_right _ _ _ _ hm) k s'' hr) hkj
  · intro e'' he''
    show e''.ptr < next
    rcases heapDec_spec heap j e'' he'' with ⟨e, he, hptr, _, _⟩
    rw [hptr]
    exact hinv.fresh e he
  · intro e'' he''
    show 1 ≤ e''.strong
    rcases heapDec_spec heap j e'' he'' with ⟨e, he, _, _, hcase⟩
    have hp := hinv.pos e he
    rcases hcase with ⟨_, hsame⟩ | ⟨_, hge, hdec⟩
    · omega
    · omega
  · intro pc'' hmem j' s'' hp
    rcases mem_middle_cases l₁ l₂ (TPc.failed s) pc'' hmem with hm | hm | hm
    · obtain ⟨k1, k2⟩ : poolCount pool j' = 0
          ∧ thCount (l₁ ++ TPc.reconIns s j :: l₂) j' = 1 :=
        hinv.priv pc'' (mem_middle_left _ _ _ _ hm) j' s'' hp
      have hjj : j' ≠ j := by
        intro he
        have hfls := hnoJ pc'' (.inl hm)
        have htr : pcHolds j pc'' = true :=
          pcHolds_of_pcRef pc'' j s'' (by rw [← he]; exact pcRef_of_pcPriv pc'' (j', s'') hp)
        rw [htr] at hfls
        simp at hfls
      refine ⟨k1, ?_⟩
      rw [hTCo j' hjj]
      exact k2
    · subst hm
      simp [pcPriv] at hp
    · obtain ⟨k1, k2⟩ : poolCount pool j' = 0
          ∧ thCount (l₁ ++ TPc.reconIns s j :: l₂) j' = 1 :=
        hinv.priv pc'' (mem_middle_right _ _ _ _ hm) j' s'' hp
      have hjj : j' ≠ j := by
        intro he
        have hfls := hnoJ pc'' (.inr hm)
        have htr : pcHolds j pc'' = true :=
          pcHolds_of_pcRef pc'' j s'' (by rw [← he]; exact pcRef_of_pcPriv pc'' (j', s'') hp)
        rw [htr] at hfls
        simp at hfls
      refine ⟨k1, ?_⟩
      rw [hTCo j' hjj]
      exact k2

/-- The `dropDone` action (the caller dropping its returned handle)
preserves the invariant. -/
theorem inv_dropDone (heap : List PoolEntry) (pool : List (Nat × String))
    (l₁ l₂ : List TPc) (next : Nat) (s : String) (i : Nat)
    (hinv : Inv ⟨heap, pool, l₁ ++ .done s i :: l₂, next⟩) :
    Inv ⟨heapDec heap i, pool, l₁ ++ .dropped s :: l₂, next⟩ := by
  have hTCi : thCount (l₁ ++ TPc.dropped s :: l₂) i + 1
      = thCount (l₁ ++ TPc.done s i :: l₂) i := by
    have hu := thCount_update l₁ l₂ (TPc.done s i) (TPc.dropped s) i
    simp at hu
    omega
  have hTCo : ∀ k, k ≠ i → thCount (l₁ ++ TPc.dropped s :: l₂) k
      = thCount (l₁ ++ TPc.done s i :: l₂) k := by
    intro k hki
    have hu := thCount_update l₁ l₂ (TPc.done s i) (TPc.dropped s) k
    have hik : i ≠ k := fun h => hki h.symm
    simp [hik] at hu
    omega
  have hfocus : pcHolds i (TPc.done s i) = true := by simp
  refine ⟨?_, hinv.nodupData, ?_, ?_, ?_, ?_, ?_, ?_⟩
  · show ((heapDec heap i).map (fun e => e.ptr)).Nodup
    exact List.Nodup.sublist (heapDec_map_ptr_sublist heap i) hinv.nodupPtr
  · intro e'' he''
    show e''.strong = poolCount pool e''.ptr + thCount (l₁ ++ TPc.dropped s :: l₂) e''.ptr
    rcases heapDec_spec heap i e'' he'' with ⟨e, he, hptr, _, hcase⟩
    have hc : e.strong = poolCount pool e.ptr
        + thCount (l₁ ++ TPc.done s i :: l₂) e.ptr := hinv.count e he
    rcases hcase with ⟨hnei, hsame⟩ | ⟨heqi, hge, hdec⟩
    · rw [hptr, hTCo e.ptr hnei]
      omega
    · rw [hptr, heqi]
      rw [heqi] at hc
      omega
  · intro q hq'
    show ∃ e ∈ heapDec heap i, e.ptr = q.1 ∧ e.data = q.2
    obtain ⟨e, he, hptr, hdata⟩ := hinv.poolHeap q hq'
    by_cases hqi : q.1 = i
    · have hc : e.strong = poolCount pool e.ptr
          + thCount (l₁ ++ TPc.done s i :: l₂) e.ptr := hinv.count e he
      have hpc : 1 ≤ poolCount pool q.1 := poolCount_pos_of_mem pool q.1 q.2 hq'
      have hth : 1 ≤ thCount (l₁ ++ TPc.done s i :: l₂) i :=
        thCount_pos_of_holder _ (TPc.done s i) i (mem_middle_self _ _ _) hfocus
      have hge : 2 ≤ e.strong := by
        rw [hc, hptr, hqi]
        rw [hqi] at hpc
        omega
      refine ⟨⟨e.ptr, e.data, e.strong - 1⟩,
        heapDec_mem_dec heap i e he (by rw [hptr, hqi]) hge, hptr, hdata⟩
    · exact ⟨e, heapDec_mem_other heap i e he (by rw [hptr]; exact hqi), hptr, hdata⟩
  · intro pc'' hmem k s'' hr
    show ∃ e ∈ heapDec heap i, e.ptr = k ∧ e.data = s''
    rcases mem_middle_cases l₁ l₂ (TPc.dropped s) pc'' hmem with hm | hm | hm
    · obtain ⟨e, he, hptr, hdata⟩ :=
        hinv.thHeap pc'' (mem_middle_left _ _ _ _ hm) k s'' hr
      by_cases hki : k = i
      · have hc : e.strong = poolCount pool e.ptr
            + thCount (l₁ ++ TPc.done s i :: l₂) e.ptr := hinv.count e he
        have hth2 : 2 ≤ thCount (l₁ ++ TPc.done s i :: l₂) i :=
          two_holders l₁ l₂ (TPc.done s i) i hfocus pc'' (.inl hm)
            (pcHolds_of_pcRef pc'' i s'' (hki ▸ hr))
        have hge : 2 ≤ e.strong := by
          rw [hc, hptr, hki]
          omega
        exact ⟨⟨e.ptr, e.data, e.strong - 1⟩,
          heapDec_mem_dec heap i e he (by rw [hptr, hki]) hge, hptr, hdata⟩
      · exact ⟨e, heapDec_mem_other heap i e he (by rw [hptr]; exact hki), hptr, hdata⟩
    · subst hm
      simp [pcRef] at hr
    · obtain ⟨e, he, hptr, hdata⟩ :=
        hinv.thHeap pc'' (mem_middle_right _ _ _ _ hm) k s'' hr
      by_cases hki : k = i
      · have hc : e.strong = poolCount pool e.ptr
            + thCount (l₁ ++ TPc.done s i :: l₂) e.ptr := hinv.count e he
        have hth2 : 2 ≤ thCount (l₁ ++ TPc.done s i :: l₂) i :=
          two_holders l₁ l₂ (TPc.done s i) i hfocus pc'' (.inr hm)
            (pcHolds_of_pcRef pc'' i s'' (hki ▸ hr))
        have hge : 2 ≤ e.strong := by
          rw [hc, hptr, hki]
          omega
        exact ⟨⟨e.ptr, e.data, e.strong - 1⟩,
          heapDec_mem_dec heap i e he (by rw [hptr, hki]) hge, hptr, hdata⟩
      · exact ⟨e, heapDec_mem_other heap i e he (by rw [hptr]; exact hki), hptr, hdata⟩
  · intro e'' he''
    show e''.ptr < next
    rcases heapDec_spec heap i e'' he'' with ⟨e, he, hptr, _, _⟩
    rw [hptr]
    exact hinv.fresh e he
  · intro e'' he''
    show 1 ≤ e''.strong
    rcases heapDec_spec heap i e'' he'' with ⟨e, he, _, _, hcase⟩
    have hp := hinv.pos e he
    rcases hcase with ⟨_, hsame⟩ | ⟨_, hge, hdec⟩
    · omega
    · omega
  · intro pc'' hmem j' s'' hp
    rcases mem_middle_cases l₁ l₂ (TPc.dropped s) pc'' hmem with hm | hm | hm
    · obtain ⟨k1, k2⟩ : poolCount pool j' = 0
          ∧ thCount (l₁ ++ TPc.done s i :: l₂) j' = 1 :=
        hinv.priv pc'' (mem_middle_left _ _ _ _ hm) j' s'' hp
      have hji : j' ≠ i := by
        intro he
        have hth2 : 2 ≤ thCount (l₁ ++ TPc.done s i :: l₂) j' := by
          rw [he]
          exact two_holders l₁ l₂ (TPc.done s i) i hfocus pc'' (.inl hm)
            (pcHolds_of_pcRef pc'' i s''
              (by rw [← he]; exact pcRef_of_pcPriv pc'' (j', s'') hp))
        omega
      refine ⟨k1, ?_⟩
      rw [hTCo j' hji]
      exact k2
    · subst hm
      simp [pcPriv] at hp
    · obtain ⟨k1, k2⟩ : poolCount pool j' = 0
          ∧ thCount (l₁ ++ TPc.done s i :: l₂) j' = 1 :=
        hinv.priv pc'' (mem_middle_right _ _ _ _ hm) j' s'' hp
      have hji : j' ≠ i := by
        intro he
        have hth2 : 2 ≤ thCount (l₁ ++ TPc.done s i :: l₂) j' := by
          rw [he]
          exact two_holders l₁ l₂ (TPc.done s i) i hfocus pc'' (.inr hm)
            (pcHolds_of_pcRef pc'' i s''
              (by rw [← he]; exact pcRef_of_pcPriv pc'' (j', s'') hp))
        omega
      refine ⟨k1, ?_⟩
      rw [hTCo j' hji]
      exact k2

/-- One check-and-remove of `collect_garbage` (removing an entry whose
strong count is exactly 1) preserves the invariant. -/
theorem inv_gcSweep (heap : List PoolEntry) (pool : List (Nat × String))
    (threads : List TPc) (next : Nat) (s : String) (i : Nat)
    (hq : (i, s) ∈ pool) (hcell : (⟨i, s, 1⟩ : PoolEntry) ∈ heap)
    (hinv : Inv ⟨heap, pool, threads, next⟩) :
    Inv ⟨heapDec heap i, pool.filter (fun q => !(q.1 == i)), threads, next⟩ := by
  have hc1 : (⟨i, s, 1⟩ : PoolEntry).strong
      = poolCount pool (⟨i, s, 1⟩ : PoolEntry).ptr + thCount threads (⟨i, s, 1⟩ : PoolEntry).ptr :=
    hinv.count ⟨i, s, 1⟩ hcell
  have hpi : 1 ≤ poolCount pool i := poolCount_pos_of_mem pool i s hq
  have hth0 : thCount threads i = 0 := by
    have : (1 : Nat) = poolCount pool i + thCount threads i := hc1
    omega
  have hpc1 : poolCount pool i = 1 := by
    have : (1 : Nat) = poolCount pool i + thCount threads i := hc1
    omega
  have hPCo : ∀ k, k ≠ i → poolCount (pool.filter (fun q => !(q.1 == i))) k
      = poolCount pool k := fun k hk => poolCount_filter_other pool i k hk
  have hnoHolder : ∀ pc ∈ threads, pcHolds i pc = false := by
    intro pc hpc
    simpa using List.countP_eq_zero.mp hth0 pc hpc
  refine ⟨?_, ?_, ?_, ?_, ?_, ?_, ?_, ?_⟩
  · show ((heapDec heap i).map (fun e => e.ptr)).Nodup
    exact List.Nodup.sublist (heapDec_map_ptr_sublist heap i) hinv.nodupPtr
  · show ((pool.filter (fun q => !(q.1 == i))).map (fun q => q.2)).Nodup
    exact List.Nodup.sublist (List.Sublist.map _ (List.filter_sublist pool)) hinv.nodupData
  · intro e'' he''
    show e''.strong = poolCount (pool.filter (fun q => !(q.1 == i))) e''.ptr
      + thCount threads e''.ptr
    rcases heapDec_spec heap i e'' he'' with ⟨e, he, hptr, _, hcase⟩
    have hc : e.strong = poolCount pool e.ptr + thCount threads e.ptr := hinv.count e he
    rcases hcase with ⟨hnei, hsame⟩ | ⟨heqi, hge, _⟩
    · rw [hptr, hPCo e.ptr hnei]
      omega
    · have : e = ⟨i, s, 1⟩ := heap_ptr_inj heap hinv.nodupPtr e ⟨i, s, 1⟩ he hcell (by rw [heqi])
      rw [this] at hge
      simp at hge
  · intro q hq'
    show ∃ e ∈ heapDec heap i, e.ptr = q.1 ∧ e.data = q.2
    have hqmem := List.mem_filter.mp hq'
    have hqi : q.1 ≠ i := by simpa using hqmem.2
    exact heapDec_preserves_ref_ne heap i q.1 q.2 (hinv.poolHeap q hqmem.1) hqi
  · intro pc'' hmem k s'' hr
    show ∃ e ∈ heapDec heap i, e.ptr = k ∧ e.data = s''
    have hki : k ≠ i := by
      intro he
      have hfls := hnoHolder pc'' hmem
      have htr : pcHolds i pc'' = true := pcHolds_of_pcRef pc'' i s'' (he ▸ hr)
      rw [htr] at hfls
      simp at hfls
    exact heapDec_preserves_ref_ne heap i k s'' (hinv.thHeap pc'' hmem k s'' hr) hki
  · intro e'' he''
    show e''.ptr < next
    rcases heapDec_spec heap i e'' he'' with ⟨e, he, hptr, _, _⟩
    rw [hptr]
    exact hinv.fresh e he
  · intro e'' he''
    show 1 ≤ e''.strong
    rcases heapDec_spec heap i e'' he'' with ⟨e, he, _, _, hcase⟩
    have hp := hinv.pos e he
    rcases hcase with ⟨_, hsame⟩ | ⟨_, hge, hdec⟩
    · omega
    · omega
  · intro pc'' hmem j' s'' hp
    obtain ⟨k1, k2⟩ : poolCount pool j' = 0 ∧ thCount threads j' = 1 :=
      hinv.priv pc'' hmem j' s'' hp
    have hji : j' ≠ i := by
      intro he
      rw [he, hpc1] at k1
      omega
    exact ⟨by rw [hPCo j' hji]; exact k1, k2⟩

/-- Every atomic action preserves the invariant. -/
theorem inv_step (σ σ' : CState) (hstep : Step σ σ') (hinv : Inv σ) : Inv σ' := by
  cases hstep with
  | lookupHit heap pool l₁ l₂ next s i hq =>
    exact inv_lookupHit heap pool l₁ l₂ next s i hq hinv
  | lookupMiss heap pool l₁ l₂ next s hmiss =>
    exact inv_lookupMiss heap pool l₁ l₂ next s hinv
  | insertOk heap pool l₁ l₂ next s j hmiss =>
    exact inv_publish heap pool l₁ l₂ next s j (.inserting s j) rfl rfl hmiss hinv
  | insertFail heap pool l₁ l₂ next s j i hq =>
    exact inv_pc_same_ref heap pool l₁ l₂ next (.inserting s j) (.reconGet s j) rfl rfl hinv
  | reconHit heap pool l₁ l₂ next s j i hq =>
    exact inv_reconHit heap pool l₁ l₂ next s j i hq hinv
  | reconMiss heap pool l₁ l₂ next s j hmiss =>
    exact inv_pc_same_ref heap pool l₁ l₂ next (.reconGet s j) (.reconIns s j) rfl rfl hinv
  | reconInsOk heap pool l₁ l₂ next s j hmiss =>
    exact inv_publish heap pool l₁ l₂ next s j (.reconIns s j) rfl rfl hmiss hinv
  | reconInsFail heap pool l₁ l₂ next s j i hq =>
    exact inv_reconInsFail heap pool l₁ l₂ next s j hinv
  | dropDone heap pool l₁ l₂ next s i =>
    exact inv_dropDone heap pool l₁ l₂ next s i hinv
  | gcSweep heap pool threads next s i hq hcell hlock =>
    exact inv_gcSweep heap pool threads next s i hq hcell hinv

/-- Initial states satisfy the invariant. -/
theorem inv_init (σ : CState) (hinit : CInit σ) : Inv σ := by
  obtain ⟨hh, hp, _, hth⟩ := hinit
  refine ⟨?_, ?_, ?_, ?_, ?_, ?_, ?_, ?_⟩
  · rw [hh]
    simp
  · rw [hp]
    simp
  · intro e he
    rw [hh] at he
    simp at he
  · intro q hq
    rw [hp] at hq
    simp at hq
  · intro pc hpc i s href
    rcases hth pc hpc with ⟨s', hpc'⟩
    rw [hpc'] at href
    simp [pcRef] at href
  · intro e he
    rw [hh] at he
    simp at he
  · intro e he
    rw [hh] at he
    simp at he
  · intro pc hpc j s hp'
    rcases hth pc hpc with ⟨s', hpc'⟩
    rw [hpc'] at hp'
    simp [pcPriv] at hp'

/-- Every reachable state satisfies the invariant. -/
theorem reach_inv (σ : CState) (h : Reach σ) : Inv σ := by
  induction h with
  | init σ hinit => exact inv_init σ hinit
  | step σ σ' _ hstep ih => exact inv_step σ σ' hstep ih

/-- C6: under arbitrary interleaving of `intern` threads,
`collect_garbage` sweeps and handle drops, every handle a completed
`intern(s)` call still holds refers to a live allocation (strong count at
least 1) whose content is exactly the requested string — no handle
returned by `intern` is ever invalidated by a concurrent or earlier
`collect_garbage`. -/
theorem c6_handles_stay_valid (σ : CState) (hreach : Reach σ) (s : String) (i : Nat)
    (hdone : TPc.done s i ∈ σ.threads) :
    ∃ e ∈ σ.heap, e.ptr = i ∧ e.data = s ∧ 1 ≤ e.strong := by
  have hinv := reach_inv σ hreach
  obtain ⟨e, he, hptr, hdata⟩ := hinv.thHeap (.done s i) hdone i s rfl
  exact ⟨e, he, hptr, hdata, hinv.pos e he⟩

/-- C6 witness: a concrete two-step run (lookup miss, then successful
publication) of one thread interning `"a"` from the empty initial state;
the returned handle refers to a live cell with content `"a"`. -/
theorem c6_handles_stay_valid_witness :
    ∃ e ∈ (⟨[⟨0, "a", 2⟩], [(0, "a")], [TPc.done "a" 0], 1⟩ : CState).heap,
      e.ptr = 0 ∧ e.data = "a" ∧ 1 ≤ e.strong := by
  have h0 : Reach ⟨[], [], [TPc.start "a"], 0⟩ := by
    apply Reach.init
    refine ⟨rfl, rfl, rfl, ?_⟩
    intro pc hpc
    simp at hpc
    exact ⟨"a", hpc⟩
  have h1 : Reach ⟨[⟨0, "a", 1⟩], [], [TPc.inserting "a" 0], 1⟩ := by
    have hstep := Step.lookupMiss [] [] [] [] 0 "a" (by intro q hq; simp at hq)
    exact Reach.step _ _ h0 hstep
  have h2 : Reach ⟨[⟨0, "a", 2⟩], [(0, "a")], [TPc.done "a" 0], 1⟩ := by
    have hstep := Step.insertOk [⟨0, "a", 1⟩] [] [] [] 1 "a" 0 (by intro q hq; simp at hq)
    exact Reach.step _ _ h1 hstep
  exact c6_handles_stay_valid _ h2 "a" 0 (by simp)

end PStr
